import Mathlib

/-!
# Verification of the Milo scheduling engine (shallow embedding)

This file embeds, in Lean 4, the parts of the Python scheduling engine that
the specification's testable properties talk about:

* `xgboost_ownership.py` — the slot-ownership classifier
  (`build_training_data`'s `slot_ownership` map, `predict_owner`,
  `get_ownership_distribution`, `get_driver_pattern`);
* `xgboost_availability.py` — `AvailabilityClassifier._compute_driver_stats`;
* `pattern_analyzer.py` — `PatternAnalyzer._calculate_preferences` and the
  pattern-group thresholding of `PatternAnalyzer.cluster_drivers`;
* `schedule_optimizer.py` — `optimize_schedule`,
  `optimize_with_precomputed_scores` and their solution decoding.

Modelling conventions:

* Python dictionaries are embedded as insertion-ordered association lists
  (Python ≥ 3.7 dictionaries preserve insertion order); `defaultdict`
  update is `updAssoc`.
* Python `max(...)` over an iterable returns the *first* maximal element;
  this is `firstMaxBy`.
* Machine floats whose uses in the verified claims are exact (counts divided
  by counts, thresholds `0.70`, `0.25` and the literals `3.0`, `1.0`) are
  embedded as rationals; the square root used only inside reported
  standard-deviation/confidence diagnostics is taken as an explicit function
  parameter `sqrt`, since no claim constrains its value.
* The external ML capabilities (XGBoost, K-Means, CP-SAT) are black boxes
  per the specification; the CP-SAT solver is modelled as a parameter
  returning a status and a boolean valuation of the decision variables, with
  the posted hard constraints stated separately as decidable predicates.
-/

namespace Milo

/-- Python's `max(xs, key=f)`: the first element attaining the maximal key
(`max` only replaces the current best on a strictly greater key). -/
def firstMaxBy {α β : Type} [LinearOrder β] (f : α → β) : List α → Option α
  | [] => none
  | x :: xs => some (xs.foldl (fun best y => if f best < f y then y else best) x)

/-- `defaultdict`-style update of an insertion-ordered association list:
apply `f` to the value at `k` (taking `d` as the default when `k` is absent,
in which case the key is appended at the end, as Python dict insertion does). -/
def updAssoc {κ α : Type} [DecidableEq κ] (m : List (κ × α)) (k : κ) (d : α) (f : α → α) :
    List (κ × α) :=
  match m with
  | [] => [(k, f d)]
  | (k', v) :: rest => if k' = k then (k', f v) :: rest else (k', v) :: updAssoc rest k d f

/-- Ordered-dict lookup. -/
def lookupAssoc {κ α : Type} [DecidableEq κ] (m : List (κ × α)) (k : κ) : Option α :=
  (m.find? (fun p => p.1 = k)).map (·.2)

/-! ## Ownership classifier (`xgboost_ownership.py`) -/

/-- One historical assignment record as consumed by
`OwnershipClassifier.build_training_data` (fields read with their Python
defaults already applied: `soloType` defaults to `"solo1"`, `tractorId` to
`"Tractor_1"`, `driverName` to `"Unknown"`, `dayOfWeek` to `0`,
`serviceDate` to `""`). -/
structure OwnRecord where
  driverName : String
  soloType : String
  tractorId : String
  dayOfWeek : Nat
  serviceDate : String
deriving Repr, DecidableEq

/-- The slot key `(soloType, tractorId, canonicalTime, dayOfWeek)`.
`OwnershipClassifier._make_slot_key` joins the four components with `"|"`;
we keep them structured (the join is injective as long as no component
contains `"|"`, which holds for all keys the engine builds). -/
structure SlotKey where
  soloType : String
  tractorId : String
  canonicalTime : String
  dayOfWeek : Nat
deriving Repr, DecidableEq

/-- The static `CANONICAL_START_TIMES` lookup table. -/
def CANONICAL_START_TIMES : List (String × String) :=
  [("solo1_Tractor_1", "16:30"), ("solo1_Tractor_2", "20:30"),
   ("solo1_Tractor_3", "20:30"), ("solo1_Tractor_4", "17:30"),
   ("solo1_Tractor_5", "21:30"), ("solo1_Tractor_6", "01:30"),
   ("solo1_Tractor_7", "18:30"), ("solo1_Tractor_8", "00:30"),
   ("solo1_Tractor_9", "16:30"), ("solo1_Tractor_10", "20:30"),
   ("solo2_Tractor_1", "18:30"), ("solo2_Tractor_2", "23:30"),
   ("solo2_Tractor_3", "21:30"), ("solo2_Tractor_4", "08:30"),
   ("solo2_Tractor_5", "15:30"), ("solo2_Tractor_6", "11:30"),
   ("solo2_Tractor_7", "16:30")]

/-- `get_canonical_time`: canonical start time for `soloType_tractorId`,
defaulting to `"00:00"`. -/
def get_canonical_time (soloType tractorId : String) : String :=
  (lookupAssoc CANONICAL_START_TIMES (soloType ++ "_" ++ tractorId)).getD "00:00"

/-- The `slot_ownership` state: slot key → (driver name → list of service
dates), both levels insertion-ordered as Python dictionaries are. -/
abbrev Ownership := List (SlotKey × List (String × List String))

/-- The slot key a record is filed under in `build_training_data`
(canonical time comes from the static lookup, not the raw start time). -/
def recordSlotKey (a : OwnRecord) : SlotKey :=
  ⟨a.soloType, a.tractorId, get_canonical_time a.soloType a.tractorId, a.dayOfWeek⟩

/-- One step of `build_training_data`'s
`self.slot_ownership[slot_key][driver_name].append(service_date)`. -/
def addOwnRecord (m : Ownership) (a : OwnRecord) : Ownership :=
  updAssoc m (recordSlotKey a) []
    (fun owners => updAssoc owners a.driverName [] (fun dates => dates ++ [a.serviceDate]))

/-- The `slot_ownership` map built by `build_training_data` from the
training assignments, in input order. -/
def buildOwnership (assignments : List OwnRecord) : Ownership :=
  assignments.foldl addOwnRecord []

/-- Occurrence counts per driver for one slot:
`counts = {driver: len(dates) for driver, dates in ownership.items()}`. -/
def slotCounts (owners : List (String × List String)) : List (String × Nat) :=
  owners.map (fun p => (p.1, p.2.length))

/-- `max_count = max(counts.values())` (0 on an empty slot, which the code
never reaches under its `if ownership:` guard). -/
def maxCount (owners : List (String × List String)) : Nat :=
  ((slotCounts owners).map (·.2)).foldl max 0

/-- `tied_drivers = [d for d, c in counts.items() if c == max_count]`. -/
def tiedDrivers (owners : List (String × List String)) : List String :=
  (((slotCounts owners).filter (fun p => p.2 = maxCount owners)).map (·.1))

/-- Lexicographic comparison of character lists by code point — the order
Python uses when comparing strings with `<=`. -/
def charsLe : List Char → List Char → Bool
  | [], _ => true
  | _ :: _, [] => false
  | a :: as, b :: bs =>
    if a < b then true else if b < a then false else charsLe as bs

/-- Python's `a <= b` on strings (lexicographic by code point). -/
def pyStrLe (a b : String) : Bool := charsLe a.data b.data

/-- ASCII lower-casing of one character (Python's `str.lower()` restricted
to ASCII, which covers every contract type and day name the engine
handles). -/
def asciiLower (c : Char) : Char :=
  if 'A' ≤ c ∧ c ≤ 'Z' then Char.ofNat (c.toNat + 32) else c

/-- Python's `s.lower()` on the engine's ASCII field values. -/
def strLower (s : String) : String := ⟨s.data.map asciiLower⟩

/-- Number of this driver's service dates on or after the 8-week cutoff:
`sum(1 for d in ownership[driver] if d >= cutoff)`.  Dates are ISO strings,
compared lexicographically exactly as Python compares them; the cutoff
(`datetime.now() - 8 weeks`, formatted `YYYY-MM-DD`) is a parameter of the
embedding since it is the one wall-clock input. -/
def recentCount (owners : List (String × List String)) (driver : String)
    (cutoff : String) : Nat :=
  ((lookupAssoc owners driver).getD []).countP (fun d => pyStrLe cutoff d)

/-- The slot-history part of `OwnershipClassifier.predict_owner`: `none`
when the queried slot has no recorded history (the source then defers to
the trained XGBoost model — an external capability — or returns
`("Unknown", 0.0)`); otherwise the winning driver and its share of the
slot's occurrences. -/
def predictOwnerSlot (owners : List (String × List String)) (cutoff : String) :
    Option (String × ℚ) :=
  if owners.isEmpty then none
  else
    let counts := slotCounts owners
    let tied := tiedDrivers owners
    let best :=
      if tied.length = 1 then tied.headD "Unknown"
      else (firstMaxBy (fun d => recentCount owners d cutoff) tied).getD "Unknown"
    let total := (counts.map (·.2)).sum
    some (best, ((lookupAssoc counts best).getD 0 : ℚ) / total)

/-- `OwnershipClassifier.predict_owner` on a classifier whose
`slot_ownership` was built from `assignments` (slot-history path). -/
def predictOwner (assignments : List OwnRecord) (slot : SlotKey) (cutoff : String) :
    Option (String × ℚ) :=
  match lookupAssoc (buildOwnership assignments) slot with
  | none => none
  | some owners => predictOwnerSlot owners cutoff

/-- Result record of `get_ownership_distribution`. -/
structure OwnershipDistribution where
  slot_type : String
  owner : Option String
  owner_share : ℚ
  shares : List (String × ℚ)
  total_assignments : Nat
deriving Repr, DecidableEq

/-- The `'unknown'` result for slots with no history. -/
def unknownDistribution : OwnershipDistribution :=
  ⟨"unknown", none, 0, [], 0⟩

/-- The slot-present branch of `get_ownership_distribution`:
`OWNERSHIP_THRESHOLD = 0.70`; the slot is `owned` by the top-share driver
(`max(shares.items(), key=...)`, first maximum) when that share reaches the
threshold, `rotating` with no owner otherwise. -/
def distributionOf (owners : List (String × List String)) : OwnershipDistribution :=
  if owners.isEmpty then unknownDistribution
  else
    let counts := slotCounts owners
    let total := (counts.map (·.2)).sum
    if total = 0 then unknownDistribution
    else
      let shares := counts.map (fun p => (p.1, (p.2 : ℚ) / total))
      let top := (firstMaxBy (fun p => p.2) shares).getD ("", 0)
      if 7 / 10 ≤ top.2 then
        ⟨"owned", some top.1, top.2, shares, total⟩
      else
        ⟨"rotating", none, top.2, shares, total⟩

/-- `OwnershipClassifier.get_ownership_distribution` on a classifier whose
`slot_ownership` was built from `assignments`. -/
def getOwnershipDistribution (assignments : List OwnRecord) (slot : SlotKey) :
    OwnershipDistribution :=
  match lookupAssoc (buildOwnership assignments) slot with
  | none => unknownDistribution
  | some owners => distributionOf owners

/-- `DAY_NAMES` of `xgboost_ownership.py` (display names, Sunday-first). -/
def DAY_NAMES : List String :=
  ["Sunday", "Monday", "Tuesday", "Wednesday", "Thursday", "Friday", "Saturday"]

/-- Stable insertion of `x` in front of the first element whose key is not
above `key x` — the insertion step of a descending stable sort. -/
def insertDesc {α : Type} (key : α → Nat) (x : α) : List α → List α
  | [] => [x]
  | y :: ys => if key y ≤ key x then x :: y :: ys else y :: insertDesc key x ys

/-- Python's `sorted(l, key=key, reverse=True)`: stable descending sort
(ties keep their original relative order). -/
def sortDesc {α : Type} (key : α → Nat) (l : List α) : List α :=
  l.foldr (insertDesc key) []

/-- One step of the `day_totals` accumulation of `get_driver_pattern`:
when the slot has an entry for this driver, add the length of its date list
to the running total of the slot's weekday
(`day_totals[day_of_week] = day_totals.get(day_of_week, 0) + count`). -/
def dayTotalsStep (name : String) (acc : List (Nat × Nat))
    (p : SlotKey × List (String × List String)) : List (Nat × Nat) :=
  match lookupAssoc p.2 name with
  | none => acc
  | some dates => updAssoc acc p.1.dayOfWeek 0 (· + dates.length)

/-- The `day_totals` accumulation of `get_driver_pattern`: iterate the
`slot_ownership` items in insertion order, summing this driver's
assignment counts per weekday across all slots. -/
def dayTotalsOf (m : Ownership) (name : String) : List (Nat × Nat) :=
  m.foldl (dayTotalsStep name) []

/-- Mathematical restatement of a driver's total assignment count on one
weekday, summed across all slots of that weekday. -/
def dayTotalFn (m : Ownership) (name : String) (dow : Nat) : Nat :=
  ((m.filter (fun p => p.1.dayOfWeek = dow)).map
    (fun p => ((lookupAssoc p.2 name).getD []).length)).sum

/-- `day_counts`: the weekdays retaining at least `MIN_TOTAL_PER_DAY = 2`
total assignments. -/
def patternDayCounts (m : Ownership) (name : String) : List (Nat × Nat) :=
  (dayTotalsOf m name).filter (fun p => 2 ≤ p.2)

/-- `sorted_days`: the retained weekdays sorted by total count, most worked
first (Python's `sorted(..., reverse=True)` is stable). -/
def sortedPatternDays (m : Ownership) (name : String) : List Nat :=
  (sortDesc (fun p => p.2) (patternDayCounts m name)).map (·.1)

/-- Result record of `get_driver_pattern`. -/
structure DriverPattern where
  driver : String
  typical_days : Nat
  day_list : List String
  day_counts : List (String × Nat)
  confidence : ℚ
deriving Repr, DecidableEq

/-- The safety default returned when there is no slot-ownership data at all
or no weekday reaches the 2-assignment bar: 6 typical days, empty day list,
confidence `0.0`. -/
def defaultPattern (name : String) : DriverPattern :=
  ⟨name, 6, [], [], 0⟩

/-- `OwnershipClassifier.get_driver_pattern`.  The square root inside the
confidence diagnostic is taken as a parameter (the source uses the real
square root of the population variance; no claim constrains its value), and
the source's 3-decimal display rounding of the confidence is omitted. -/
def getDriverPattern (sqrt : ℚ → ℚ) (m : Ownership) (name : String) : DriverPattern :=
  if m.isEmpty then defaultPattern name
  else
    let dayCounts := patternDayCounts m name
    if dayCounts.isEmpty then defaultPattern name
    else
      let counts : List ℚ := dayCounts.map (fun p => (p.2 : ℚ))
      let mean := counts.sum / (counts.length : ℚ)
      let variance := (counts.map (fun c => (c - mean) ^ 2)).sum / (counts.length : ℚ)
      let conf := max 0 (min 1 (1 - sqrt variance / (mean + 1)))
      ⟨name, dayCounts.length,
        (sortedPatternDays m name).map (fun d => DAY_NAMES.getD d ""),
        dayCounts.map (fun p => (DAY_NAMES.getD p.1 "", p.2)), conf⟩

/-! ## Availability statistics (`xgboost_availability.py`) -/

/-- Ascending insertion (for `sorted(...)` over distinct day numbers). -/
def insertAsc (x : Nat) : List Nat → List Nat
  | [] => [x]
  | y :: ys => if x ≤ y then x :: y :: ys else y :: insertAsc x ys

/-- `sorted(...)` on day numbers. -/
def sortAsc (l : List Nat) : List Nat := l.foldr insertAsc []

/-- One raw history record as consumed by
`AvailabilityClassifier._compute_driver_stats`: only its service date
matters, already resolved to a day number (`serviceDate` falling back to
`date`, `none` when the field is missing or unparseable — such records are
skipped, as the source's `try/except: continue` does).  Calendar dates are
embedded as day numbers so that Python's `(d2 - d1).days` is plain
subtraction. -/
structure AvailRecord where
  date : Option Nat
deriving Repr, DecidableEq

/-- The gap list of `_compute_driver_stats`: consecutive differences of the
sorted distinct work dates, keeping a gap only when `0 < gap < 30`. -/
def usableIntervals (dates : List Nat) : List Nat :=
  (dates.zip dates.tail).filterMap
    (fun p => let g := p.2 - p.1; if 0 < g ∧ g < 30 then some g else none)

/-- Population mean of a list of naturals, as a rational. -/
def natMean (l : List Nat) : ℚ :=
  ((l.map (fun n => (n : ℚ))).sum) / (l.length : ℚ)

/-- Population variance of a list of naturals (`np.std` squared). -/
def natPopVariance (l : List Nat) : ℚ :=
  ((l.map (fun n => ((n : ℚ) - natMean l) ^ 2)).sum) / (l.length : ℚ)

/-- The statistics record returned by `_compute_driver_stats`.  The source
also stores a `weekday_counts` histogram keyed by weekday; it is used only
as a feature source for the external XGBoost model, and no claim touches
it, so it is omitted here. -/
structure DriverStats where
  work_dates : List Nat
  total_days : Nat
  rolling_interval : ℚ
  interval_std : ℚ
deriving Repr, DecidableEq

/-- `AvailabilityClassifier._compute_driver_stats`.  `sqrt` abstracts the
real square root inside `np.std` (only reached when at least two usable
gaps exist; every defaulted standard deviation is the literal `1.0`). -/
def computeDriverStats (sqrt : ℚ → ℚ) (history : List AvailRecord) : DriverStats :=
  if history.isEmpty then ⟨[], 0, 3, 1⟩
  else
    let wd := sortAsc (history.filterMap (·.date)).dedup
    if 2 ≤ wd.length then
      let ivs := usableIntervals wd
      if ivs.isEmpty then ⟨wd, wd.length, 3, 1⟩
      else
        ⟨wd, wd.length, natMean ivs,
          if 1 < ivs.length then sqrt (natPopVariance ivs) else 1⟩
    else ⟨wd, wd.length, 3, 1⟩

/-! ## Pattern analyzer (`pattern_analyzer.py`) -/

/-- `MIN_ASSIGNMENTS_FOR_PATTERN` (≈ one per week over the 8-week window). -/
def MIN_ASSIGNMENTS_FOR_PATTERN : Nat := 8

/-- One history record as consumed by
`PatternAnalyzer._calculate_preferences`: the weekday column (`day`, with
`dayName` as the source's alternative column name), the optional start time
(`time`/`startTime`; `NaN` entries are dropped by `dropna()`), and the
optional contract type (`soloType`/`contractType`). -/
structure PARecord where
  day : String
  time : Option String
  soloType : Option String
deriving Repr, DecidableEq

/-- Deduplication keeping the first occurrence of each value (the key order
of a Python/pandas frequency table built by first appearance). -/
def firstDedup {α : Type} [DecidableEq α] (l : List α) : List α :=
  l.foldl (fun acc x => if x ∈ acc then acc else acc ++ [x]) []

/-- pandas `value_counts()`: every distinct value paired with its
occurrence count, sorted by count descending.  pandas leaves the relative
order of equal counts unspecified; this embedding fixes it to first
appearance (stable sort over first-appearance key order) — no verified
claim depends on the order within a tie class. -/
def valueCounts {α : Type} [DecidableEq α] (l : List α) : List (α × Nat) :=
  sortDesc (fun p => p.2) ((firstDedup l).map (fun v => (v, l.count v)))

/-- Result record of `_calculate_preferences`. -/
structure Preferences where
  days : List String
  times : List String
  contractType : String
  consistency : ℚ
deriving Repr, DecidableEq

/-- pandas `Series.mode().iloc[0]` over the lowercased contract-type
column: the lexicographically smallest among the most frequent values
(`mode()` returns the tied modes in ascending order). -/
def modeMin (l : List String) : String :=
  let vc := valueCounts l
  let mx := (vc.map (·.2)).foldl max 0
  match (vc.filter (fun p => p.2 = mx)).map (·.1) with
  | [] => "solo1"
  | x :: xs => xs.foldl (fun best s => if pyStrLe s best then s else best) x

/-- `PatternAnalyzer._calculate_preferences`.  The day threshold is
`total * 0.25` (exact in binary floating point, hence embedded exactly as
`total / 4`); `sqrt` abstracts the real square root inside the consistency
diagnostic (`np.std` over the day counts); the source's 3-decimal display
rounding of the consistency is omitted. -/
def calculatePreferences (sqrt : ℚ → ℚ) (records : List PARecord) : Preferences :=
  if records.isEmpty then ⟨[], [], "solo1", 0⟩
  else
    let total := records.length
    let dayFreq := valueCounts (records.map (fun r => strLower r.day))
    let qualified := (dayFreq.filter (fun p => (total : ℚ) / 4 ≤ (p.2 : ℚ))).map (·.1)
    let preferredDays := if qualified.isEmpty then (dayFreq.take 3).map (·.1) else qualified
    let timeFreq := valueCounts (records.filterMap (·.time))
    let preferredTimes := (timeFreq.take 3).map (·.1)
    let contracts := (records.filterMap (·.soloType)).map strLower
    let contractType := if contracts.isEmpty then "solo1" else modeMin contracts
    let dayCounts := dayFreq.map (·.2)
    let mean := natMean dayCounts
    let consistency := max 0 (min 1 (1 - sqrt (natPopVariance dayCounts) / (mean + 1 / 100)))
    ⟨preferredDays, preferredTimes, contractType, consistency⟩

/-- Per-driver profile assembled by `PatternAnalyzer.cluster_drivers`.  The
`clusterConfidence` and `rollingPattern` diagnostics (distances to K-Means
centroids, `_detect_interval_pattern`) are outputs of the external ML
capability and are not claim-relevant, so they are omitted. -/
structure DriverProfile where
  patternGroup : Option String
  preferredDays : List String
  preferredTimes : List String
  preferredContractType : String
  consistencyScore : ℚ
  assignmentsAnalyzed : Nat
deriving Repr, DecidableEq

/-- `PatternAnalyzer.cluster_drivers`.  The K-Means step is an external
capability: `labels` gives each driver id its cluster label (the
`fit_predict` output) and `clusterProfiles` is the label → group map built
by `_analyze_cluster_profiles` (whose `.get(label, 'mixed')` default is the
`getD "mixed"` here).  A pattern group is attached only when the driver has
at least `MIN_ASSIGNMENTS_FOR_PATTERN` historical assignments; otherwise it
is `none` (reported as unknown / insufficient data). -/
def cluster_drivers (sqrt : ℚ → ℚ) (labels : String → Nat)
    (clusterProfiles : List (Nat × String))
    (driverHistories : List (String × List PARecord)) : List (String × DriverProfile) :=
  driverHistories.map (fun h =>
    let prefs := calculatePreferences sqrt h.2
    let n := h.2.length
    let pg :=
      if MIN_ASSIGNMENTS_FOR_PATTERN ≤ n then
        some ((lookupAssoc clusterProfiles (labels h.1)).getD "mixed")
      else none
    (h.1, ⟨pg, prefs.days, prefs.times, prefs.contractType, prefs.consistency, n⟩))

/-! ## Schedule optimizer (`schedule_optimizer.py`)

The CP-SAT model construction and solve are an external capability; the
embedding keeps the engine's own pure logic — eligibility filtering,
contract-type partitioning, and solution decoding — and models one solver
invocation as a `SolverResult`: a status plus the boolean valuation of the
`assign[(d, b)]` decision variables.  The hard constraints the engine posts
are stated as decidable predicates on that valuation; a theorem that needs
the solver to have respected a posted constraint takes it as a hypothesis.
The ML scoring inputs (`slot_history`, `driver_histories` contents,
`score_matrix`, `min_days`, `driver_preferences`) shape only the objective
and additional constraints of the solved model — i.e. which valuation the
solver returns — so, except for the history record counts that drive the
eligibility filter and the `min_days` slider that fixes the posted fairness
bounds, they do not appear in the decoding logic embedded here. -/

/-- A driver as read by the optimizer: `{id, name, contractType}`. -/
structure Driver where
  id : String
  name : String
  contractType : Option String
deriving Repr, DecidableEq

/-- A block as read by the optimizer:
`{id, day, time, contractType, serviceDate}`. -/
structure Block where
  id : String
  day : String
  time : String
  contractType : Option String
  serviceDate : String
deriving Repr, DecidableEq

/-- `(x.get("contractType") or "solo1").lower()`: a missing or empty
contract type falls back to `"solo1"`; otherwise it is lowercased. -/
def normCT : Option String → String
  | none => "solo1"
  | some s => if s = "" then "solo1" else strLower s

/-- CP-SAT solve outcomes. -/
inductive SolveStatus where
  | OPTIMAL
  | FEASIBLE
  | INFEASIBLE
  | MODEL_INVALID
  | UNKNOWN
deriving Repr, DecidableEq

/-- The `status_names` display map (every other status reads `UNKNOWN`). -/
def statusName : SolveStatus → String
  | .OPTIMAL => "OPTIMAL"
  | .FEASIBLE => "FEASIBLE"
  | .INFEASIBLE => "INFEASIBLE"
  | .MODEL_INVALID => "MODEL_INVALID"
  | .UNKNOWN => "UNKNOWN"

/-- Only optimal/feasible outcomes are decoded into assignments. -/
def decodable : SolveStatus → Bool
  | .OPTIMAL => true
  | .FEASIBLE => true
  | _ => false

/-- One CP-SAT invocation, as the engine observes it: the returned status
and the solution values of the `assign[(d, b)]` booleans (indexed by the
driver and block positions in the lists handed to the solve). -/
structure SolverResult where
  status : SolveStatus
  val : Nat → Nat → Bool

/-- An emitted assignment.  The source record also carries diagnostic
fields (`matchType`, `historyCount`, `mlScore` / `pipelineScore`,
`patternGroup`, `scoringMethod`, time fields) that merely echo the scoring
inputs; no claim touches them, so they are omitted. -/
structure Assignment where
  blockId : String
  driverId : String
  driverName : String
  day : String
  serviceDate : String
  contractType : String
deriving Repr, DecidableEq

/-- The assignment record emitted for a chosen (driver, block) pair. -/
def mkAssignment (d : Driver) (b : Block) : Assignment :=
  ⟨b.id, d.id, d.name, b.day, b.serviceDate, b.contractType.getD "solo1"⟩

/-- The extraction loop shared by both optimizer entry points: when the
status is optimal/feasible, walk drivers (outer) × blocks (inner) and emit
one assignment per decision variable that solved to 1. -/
def decodeAssignments (drivers : List Driver) (blocks : List Block)
    (r : SolverResult) : List Assignment :=
  if decodable r.status then
    drivers.enum.flatMap (fun dp =>
      blocks.enum.filterMap (fun bp =>
        if r.val dp.1 bp.1 then some (mkAssignment dp.2 bp.2) else none))
  else []

/-- `unassigned = [b["id"] for b in blocks if b["id"] not in assigned_blocks]`. -/
def decodeUnassigned (blocks : List Block) (assigns : List Assignment) : List String :=
  (blocks.filter (fun b => ¬ b.id ∈ assigns.map (·.blockId))).map (·.id)

/-- `solve_contract_type`, reduced to its pure part: decode the solver's
outcome for one contract-type partition.
Returns `(assignments, unassigned_block_ids, status_name)`. -/
def solve_contract_type (drivers : List Driver) (blocks : List Block)
    (r : SolverResult) : List Assignment × List String × String :=
  let a := decodeAssignments drivers blocks r
  (a, decodeUnassigned blocks a, statusName r.status)

/-- Posted constraint 1 (`add_exactly_one`): each block is assigned to
exactly one driver. -/
def exactlyOneOK (nD nB : Nat) (val : Nat → Nat → Bool) : Bool :=
  (List.range nB).all (fun b => (List.range nD).countP (fun d => val d b) = 1)

/-- Posted constraint 2 (`add_at_most_one` per service date): each driver
works at most one block per date. -/
def atMostOnePerDateOK (blocks : List Block) (nD : Nat)
    (val : Nat → Nat → Bool) : Bool :=
  (List.range nD).all (fun d =>
    (firstDedup (blocks.map (·.serviceDate))).all (fun date =>
      blocks.enum.countP
        (fun bp => if bp.2.serviceDate = date then val d bp.1 else false) ≤ 1))

/-- The default fair-distribution band of
`optimize_with_precomputed_scores`: `[base_min, base_max]` from
`n_blocks / n_drivers`, widened by the `min_days` slider, with the lower
bound floored at 0 and the upper bound raised to at least 1.  (Natural
subtraction is Python's `max(0, · - k)`.) -/
def pcBounds (nD nB numDates minDays : Nat) : Nat × Nat :=
  let baseMin := nB / nD
  let baseMax := baseMin + (if nB % nD ≠ 0 then 1 else 0)
  let band :=
    if 5 ≤ minDays then (baseMin, baseMax)
    else if minDays = 4 then (baseMin - 1, min numDates (baseMax + 1))
    else (baseMin - 2, min numDates (baseMax + 2))
  (band.1, max 1 band.2)

/-- Posted constraint 3 of `optimize_with_precomputed_scores`: every
driver's assigned-block count lies in the fair-distribution band. -/
def pcBoundsOK (blocks : List Block) (nD minDays : Nat)
    (val : Nat → Nat → Bool) : Bool :=
  let numDates := (firstDedup (blocks.map (·.serviceDate))).length
  let band := pcBounds nD blocks.length numDates minDays
  (List.range nD).all (fun d =>
    let c := (List.range blocks.length).countP (fun b => val d b)
    band.1 ≤ c ∧ c ≤ band.2)

/-- All hard constraints `optimize_with_precomputed_scores` posts on its
CP-SAT model.  (The source keys the one-block-per-day constraint on
`b.get("serviceDate", b["day"])`; blocks are modelled with their service
date present.) -/
def pcConstraintsOK (drivers : List Driver) (blocks : List Block)
    (minDays : Nat) (val : Nat → Nat → Bool) : Bool :=
  exactlyOneOK drivers.length blocks.length val &&
  atMostOnePerDateOK blocks drivers.length val &&
  pcBoundsOK blocks drivers.length minDays val

/-- The `stats` object of an optimizer response. -/
structure OptStats where
  totalBlocks : Nat
  totalDrivers : Nat
  assigned : Nat
  unassignedCount : Nat
  solverStatus : String
deriving Repr, DecidableEq

/-- An optimizer response: `{assignments, unassigned, stats}`. -/
structure OptimizeResult where
  assignments : List Assignment
  unassigned : List String
  stats : OptStats
deriving Repr, DecidableEq

/-- `optimize_with_precomputed_scores` (the `optimize_with_scores` action).
`score_matrix` feeds only the objective handed to the external solver (and
the omitted `pipelineScore` diagnostic); the solve itself is the `solver`
parameter.  Note the function performs no contract-type partitioning and no
history-based eligibility filtering: every listed driver is a candidate for
every block. -/
def optimize_with_precomputed_scores (drivers : List Driver) (blocks : List Block)
    (score_matrix : List (String × List (String × ℚ))) (minDays : Nat)
    (solver : SolverResult) : OptimizeResult :=
  if blocks.isEmpty || drivers.isEmpty then
    ⟨[], blocks.map (·.id),
      ⟨blocks.length, drivers.length, 0, blocks.length, "NO_INPUT"⟩⟩
  else
    let a := decodeAssignments drivers blocks solver
    let u := decodeUnassigned blocks a
    ⟨a, u, ⟨blocks.length, drivers.length, a.length, u.length, statusName solver.status⟩⟩

/-- `MIN_HISTORY_FOR_ASSIGNMENT`: a driver needs at least one assignment in
the 8-week history to be eligible. -/
def MIN_HISTORY_FOR_ASSIGNMENT : Nat := 1

/-- The number of history records supplied for a driver id
(`len(driver_histories.get(driver_id, []))`).  Histories enter the
optimizer's own logic only through this count (their contents feed the
external ML scorers), so they are carried as id → record count. -/
def histCount (histories : List (String × Nat)) (id : String) : Nat :=
  (lookupAssoc histories id).getD 0

/-- The eligibility filter of `optimize_schedule`: drivers with fewer than
`MIN_HISTORY_FOR_ASSIGNMENT` history records are excluded. -/
def eligibleDrivers (drivers : List Driver) (histories : List (String × Nat)) :
    List Driver :=
  drivers.filter (fun d => MIN_HISTORY_FOR_ASSIGNMENT ≤ histCount histories d.id)

/-- The contract types the per-partition loop iterates over. -/
def CONTRACT_TYPES : List String := ["solo1", "solo2", "team"]

/-- The drivers grouped under contract type `ct`. -/
def ctDrivers (drivers : List Driver) (ct : String) : List Driver :=
  drivers.filter (fun d => normCT d.contractType = ct)

/-- The blocks grouped under contract type `ct`. -/
def ctBlocks (blocks : List Block) (ct : String) : List Block :=
  blocks.filter (fun b => normCT b.contractType = ct)

/-- One iteration of `optimize_schedule`'s per-contract-type loop: skip a
partition with no blocks; report every block unassigned when the partition
has no eligible driver; otherwise decode that partition's solve. -/
def partSolve (eligible : List Driver) (blocks : List Block)
    (solvers : String → SolverResult) (ct : String) :
    List Assignment × List String :=
  let cb := ctBlocks blocks ct
  if cb.isEmpty then ([], [])
  else
    let cd := ctDrivers eligible ct
    if cd.isEmpty then ([], cb.map (·.id))
    else
      let r := solve_contract_type cd cb (solvers ct)
      (r.1, r.2.1)

/-- The `solver_status` reported by `optimize_schedule`: the status of the
last partition actually solved (initially `UNKNOWN`). -/
def partStatus (eligible : List Driver) (blocks : List Block)
    (solvers : String → SolverResult) (prev : String) (ct : String) : String :=
  let cb := ctBlocks blocks ct
  if cb.isEmpty then prev
  else if (ctDrivers eligible ct).isEmpty then prev
  else statusName (solvers ct).status

/-- `optimize_schedule` (the `optimize` action): filter drivers by history
count, return immediately when there are no blocks, otherwise partition by
contract type, solve each partition (`solvers ct` is the CP-SAT outcome for
partition `ct`), and concatenate the decoded results. -/
def optimize_schedule (drivers : List Driver) (blocks : List Block)
    (minDays : Nat) (histories : List (String × Nat))
    (solvers : String → SolverResult) : OptimizeResult :=
  let eligible := eligibleDrivers drivers histories
  if blocks.isEmpty then
    ⟨[], [], ⟨0, eligible.length, 0, 0, "NO_BLOCKS"⟩⟩
  else
    let parts := CONTRACT_TYPES.map (partSolve eligible blocks solvers)
    let a := (parts.map (·.1)).flatten
    let u := (parts.map (·.2)).flatten
    let st := CONTRACT_TYPES.foldl (partStatus eligible blocks solvers) "UNKNOWN"
    ⟨a, u, ⟨blocks.length, eligible.length, a.length, u.length, st⟩⟩

/-! ## Concrete example inputs used by witnesses and counterexamples -/

/-- The spec's rolling-interval scenario: work history on days 1, 2 and 45. -/
def c8history : List AvailRecord := [⟨some 1⟩, ⟨some 2⟩, ⟨some 45⟩]

/-- A fixed slot used by the ownership witnesses: solo1 / Tractor_1 /
Sunday, whose canonical time is 16:30. -/
def slot1 : SlotKey := ⟨"solo1", "Tractor_1", "16:30", 0⟩

/-- Two training records on `slot1` (idempotence witness input). -/
def c9records : List OwnRecord :=
  [⟨"A", "solo1", "Tractor_1", 0, "2025-01-05"⟩,
   ⟨"B", "solo1", "Tractor_1", 0, "2025-01-12"⟩]

/-- A repeated Monday 16:30 solo1 assignment record (pattern-group
threshold witness input). -/
def c7rec : PARecord := ⟨"monday", some "16:30", some "solo1"⟩

/-- Two driver histories: driver `D8` with exactly 8 assignments and driver
`D7` with exactly 7. -/
def c7histories : List (String × List PARecord) :=
  [("D8", List.replicate 8 c7rec), ("D7", List.replicate 7 c7rec)]

/-- 10 training records at `slot1`: 7 for driver X, 3 for driver Y. -/
def c4ownedRecs : List OwnRecord :=
  List.replicate 7 ⟨"X", "solo1", "Tractor_1", 0, ""⟩ ++
  List.replicate 3 ⟨"Y", "solo1", "Tractor_1", 0, ""⟩

/-- 100 training records at `slot1`: 69 for driver X, 31 for driver Y. -/
def c4rotRecs : List OwnRecord :=
  List.replicate 69 ⟨"X", "solo1", "Tractor_1", 0, ""⟩ ++
  List.replicate 31 ⟨"Y", "solo1", "Tractor_1", 0, ""⟩

/-- Tie-break scenario records at `slot1`: driver A has 5 recent dates and
1 older date; driver B has 1 recent date and 5 older dates; both total 6. -/
def c5recs : List OwnRecord :=
  List.replicate 5 ⟨"A", "solo1", "Tractor_1", 0, "2025-02-02"⟩ ++
  [⟨"A", "solo1", "Tractor_1", 0, "2024-01-01"⟩] ++
  [⟨"B", "solo1", "Tractor_1", 0, "2025-02-02"⟩] ++
  List.replicate 5 ⟨"B", "solo1", "Tractor_1", 0, "2024-01-01"⟩

/-- The slot-ownership entry `buildOwnership c5recs` holds at `slot1`. -/
def c5owners : List (String × List String) :=
  [("A", ["2025-02-02", "2025-02-02", "2025-02-02", "2025-02-02", "2025-02-02",
          "2024-01-01"]),
   ("B", ["2025-02-02", "2024-01-01", "2024-01-01", "2024-01-01", "2024-01-01",
          "2024-01-01"])]

/-- An eligible solo1 driver with 4 history records (optimizer witnesses). -/
def w1driver : Driver := ⟨"D1", "Dana", some "solo1"⟩

/-- A solo1 block (optimizer witnesses). -/
def w1block : Block := ⟨"B1", "monday", "16:30", some "solo1", "2025-01-06"⟩

/-- The history-count table giving `w1driver` 4 records. -/
def w1histories : List (String × Nat) := [("D1", 4)]

/-- A solver returning OPTIMAL with every decision variable set to 1. -/
def okSolver : SolverResult := ⟨.OPTIMAL, fun _ _ => true⟩

/-- A block of an unknown contract type `solo3` (C1 counterexample). -/
def c1badBlock : Block := ⟨"B9", "monday", "16:30", some "solo3", "2025-01-06"⟩

/-- A solo2 driver (C2 counterexample). -/
def c2driver : Driver := ⟨"D2", "Kim", some "solo2"⟩

/-- A solo1 block (C2 counterexample). -/
def c2block : Block := ⟨"B2", "tuesday", "20:30", some "solo1", "2025-01-07"⟩

/-- A solo1 driver with no history anywhere (C3 counterexample). -/
def c3driver : Driver := ⟨"D3", "Lee", some "solo1"⟩

/-- A solo1 block (C3 counterexample). -/
def c3block : Block := ⟨"B3", "friday", "16:30", some "solo1", "2025-01-10"⟩

/-- Driver-pattern witness records: driver W works weekday 1 twice; driver
V works weekday 2 once (so V reaches no weekday twice). -/
def c10recs : List OwnRecord :=
  [⟨"W", "solo1", "Tractor_1", 1, "2025-01-06"⟩,
   ⟨"W", "solo1", "Tractor_1", 1, "2025-01-13"⟩,
   ⟨"V", "solo1", "Tractor_1", 2, "2025-01-07"⟩]

/-- Preference witness history: 6 Monday 16:30 records plus one Tuesday and
one Wednesday record (only monday reaches 25% of the 8 records). -/
def c6witRecs : List PARecord :=
  List.replicate 6 ⟨"Monday", some "16:30", some "solo1"⟩ ++
  [⟨"tuesday", some "20:30", none⟩, ⟨"wednesday", some "08:30", none⟩]

/-- Preference counterexample history: 5 records on 5 distinct weekdays. -/
def c6recs : List PARecord :=
  [⟨"monday", none, none⟩, ⟨"tuesday", none, none⟩, ⟨"wednesday", none, none⟩,
   ⟨"thursday", none, none⟩, ⟨"friday", none, none⟩]

/-! ## Helper lemmas and theorems -/

theorem lookupAssoc_nil {κ α : Type} [DecidableEq κ] (k : κ) :
    lookupAssoc ([] : List (κ × α)) k = none := rfl

theorem lookupAssoc_cons {κ α : Type} [DecidableEq κ] (p : κ × α) (m : List (κ × α)) (k : κ) :
    lookupAssoc (p :: m) k = if p.1 = k then some p.2 else lookupAssoc m k := by
  simp only [lookupAssoc, List.find?]
  rcases Decidable.em (p.1 = k) with h | h
  · simp [h]
  · simp [h]

theorem lookupAssoc_updAssoc_self {κ α : Type} [DecidableEq κ]
    (m : List (κ × α)) (k : κ) (d : α) (f : α → α) :
    lookupAssoc (updAssoc m k d f) k = some (f ((lookupAssoc m k).getD d)) := by
  induction m with
  | nil => simp [updAssoc, lookupAssoc_cons, lookupAssoc_nil]
  | cons p rest ih =>
    rcases p with ⟨k', v⟩
    simp only [updAssoc]
    rcases Decidable.em (k' = k) with h | h
    · simp [h, lookupAssoc_cons]
    · simp [h, lookupAssoc_cons, ih]

theorem lookupAssoc_updAssoc_other {κ α : Type} [DecidableEq κ]
    (m : List (κ × α)) (k k₂ : κ) (d : α) (f : α → α) (hk : k₂ ≠ k) :
    lookupAssoc (updAssoc m k d f) k₂ = lookupAssoc m k₂ := by
  induction m with
  | nil => simp [updAssoc, lookupAssoc_cons, lookupAssoc_nil, Ne.symm hk]
  | cons p rest ih =>
    rcases p with ⟨k', v⟩
    simp only [updAssoc]
    rcases Decidable.em (k' = k) with h | h
    · subst h
      simp [lookupAssoc_cons, Ne.symm hk]
    · simp only [if_neg h, lookupAssoc_cons, ih]

theorem keys_updAssoc {κ α : Type} [DecidableEq κ]
    (m : List (κ × α)) (k : κ) (d : α) (f : α → α) :
    (updAssoc m k d f).map Prod.fst =
      if k ∈ m.map Prod.fst then m.map Prod.fst else m.map Prod.fst ++ [k] := by
  induction m with
  | nil => simp [updAssoc]
  | cons p rest ih =>
    rcases p with ⟨k', v⟩
    simp only [updAssoc]
    rcases Decidable.em (k' = k) with h | h
    · subst h
      simp
    · simp only [if_neg h, List.map_cons, List.mem_cons]
      rcases Decidable.em (k ∈ rest.map Prod.fst) with h2 | h2
      · simp [h2, ih, Ne.symm h]
      · simp [h2, ih, Ne.symm h]

theorem nodup_keys_updAssoc {κ α : Type} [DecidableEq κ]
    (m : List (κ × α)) (k : κ) (d : α) (f : α → α)
    (h : (m.map Prod.fst).Nodup) : ((updAssoc m k d f).map Prod.fst).Nodup := by
  rw [keys_updAssoc]
  rcases Decidable.em (k ∈ m.map Prod.fst) with h2 | h2
  · simpa [h2]
  · simp only [if_neg h2]
    rw [List.nodup_append]
    exact ⟨h, List.nodup_singleton k, by simpa [List.disjoint_singleton] using h2⟩

theorem lookupAssoc_isSome_iff {κ α : Type} [DecidableEq κ]
    (m : List (κ × α)) (k : κ) :
    (lookupAssoc m k).isSome = true ↔ k ∈ m.map Prod.fst := by
  induction m with
  | nil => simp [lookupAssoc_nil]
  | cons p rest ih =>
    rw [lookupAssoc_cons]
    rcases Decidable.em (p.1 = k) with h | h
    · simp [h]
    · simp [h, ih, Ne.symm h]

theorem lookupAssoc_mem {κ α : Type} [DecidableEq κ]
    (m : List (κ × α)) (k : κ) (v : α) (h : lookupAssoc m k = some v) :
    (k, v) ∈ m := by
  induction m with
  | nil => simp [lookupAssoc_nil] at h
  | cons p rest ih =>
    rw [lookupAssoc_cons] at h
    rcases Decidable.em (p.1 = k) with h2 | h2
    · rw [if_pos h2] at h
      have hv : p.2 = v := Option.some.inj h
      have hp : p = (k, v) := by
        cases p
        simp only at h2 hv
        simp [h2, hv]
      rw [← hp]
      exact List.mem_cons_self p rest
    · rw [if_neg h2] at h
      exact List.mem_cons_of_mem p (ih h)

theorem mem_lookupAssoc {κ α : Type} [DecidableEq κ]
    (m : List (κ × α)) (k : κ) (v : α)
    (hn : (m.map Prod.fst).Nodup) (hm : (k, v) ∈ m) :
    lookupAssoc m k = some v := by
  induction m with
  | nil => simp at hm
  | cons p rest ih =>
    rw [lookupAssoc_cons]
    simp only [List.map_cons, List.nodup_cons] at hn
    rcases List.mem_cons.mp hm with h | h
    · subst h
      simp
    · have hne : p.1 ≠ k := by
        intro hk
        exact hn.1 (hk ▸ (List.mem_map.mpr ⟨(k, v), h, rfl⟩))
      rw [if_neg hne]
      exact ih hn.2 h

/-! Sorting lemmas. -/

theorem insertDesc_perm {α : Type} (key : α → Nat) (x : α) (l : List α) :
    (insertDesc key x l).Perm (x :: l) := by
  induction l with
  | nil => simp [insertDesc]
  | cons y ys ih =>
    simp only [insertDesc]
    rcases Decidable.em (key y ≤ key x) with h | h
    · simp [h]
    · rw [if_neg h]
      exact (List.Perm.cons y ih).trans (List.Perm.swap x y ys)

theorem sortDesc_perm {α : Type} (key : α → Nat) (l : List α) :
    (sortDesc key l).Perm l := by
  induction l with
  | nil => simp [sortDesc]
  | cons x xs ih =>
    simp only [sortDesc, List.foldr_cons]
    exact (insertDesc_perm key x _).trans (List.Perm.cons x ih)

theorem insertDesc_sorted {α : Type} (key : α → Nat) (x : α) (l : List α)
    (h : l.Pairwise (fun a b => key b ≤ key a)) :
    (insertDesc key x l).Pairwise (fun a b => key b ≤ key a) := by
  induction l with
  | nil => simp [insertDesc]
  | cons y ys ih =>
    simp only [insertDesc]
    rcases Decidable.em (key y ≤ key x) with hle | hle
    · rw [if_pos hle]
      refine List.Pairwise.cons ?_ h
      intro z hz
      rcases List.mem_cons.mp hz with rfl | hz
      · exact hle
      · exact le_trans ((List.pairwise_cons.mp h).1 z hz) hle
    · rw [if_neg hle]
      have h2 := List.pairwise_cons.mp h
      refine List.Pairwise.cons ?_ (ih h2.2)
      intro z hz
      have hz2 := (insertDesc_perm key x ys).mem_iff.mp hz
      rcases List.mem_cons.mp hz2 with rfl | hz2
      · exact le_of_not_le hle
      · exact h2.1 z hz2

theorem sortDesc_sorted {α : Type} (key : α → Nat) (l : List α) :
    (sortDesc key l).Pairwise (fun a b => key b ≤ key a) := by
  induction l with
  | nil => simp [sortDesc]
  | cons x xs ih =>
    simp only [sortDesc, List.foldr_cons]
    exact insertDesc_sorted key x _ ih

theorem insertAsc_perm (x : Nat) (l : List Nat) :
    (insertAsc x l).Perm (x :: l) := by
  induction l with
  | nil => simp [insertAsc]
  | cons y ys ih =>
    simp only [insertAsc]
    rcases Decidable.em (x ≤ y) with h | h
    · simp [h]
    · rw [if_neg h]
      exact (List.Perm.cons y ih).trans (List.Perm.swap x y ys)

theorem sortAsc_perm (l : List Nat) : (sortAsc l).Perm l := by
  induction l with
  | nil => simp [sortAsc]
  | cons x xs ih =>
    simp only [sortAsc, List.foldr_cons]
    exact (insertAsc_perm x _).trans (List.Perm.cons x ih)

theorem insertAsc_sorted (x : Nat) (l : List Nat)
    (h : l.Pairwise (· ≤ ·)) : (insertAsc x l).Pairwise (· ≤ ·) := by
  induction l with
  | nil => simp [insertAsc]
  | cons y ys ih =>
    simp only [insertAsc]
    rcases Decidable.em (x ≤ y) with hle | hle
    · rw [if_pos hle]
      refine List.Pairwise.cons ?_ h
      intro z hz
      rcases List.mem_cons.mp hz with rfl | hz
      · exact hle
      · exact le_trans hle ((List.pairwise_cons.mp h).1 z hz)
    · rw [if_neg hle]
      have h2 := List.pairwise_cons.mp h
      refine List.Pairwise.cons ?_ (ih h2.2)
      intro z hz
      have hz2 := (insertAsc_perm x ys).mem_iff.mp hz
      rcases List.mem_cons.mp hz2 with rfl | hz2
      · exact le_of_not_le hle
      · exact h2.1 z hz2

theorem sortAsc_sorted (l : List Nat) : (sortAsc l).Pairwise (· ≤ ·) := by
  induction l with
  | nil => simp [sortAsc]
  | cons x xs ih =>
    simp only [sortAsc, List.foldr_cons]
    exact insertAsc_sorted x _ ih

theorem firstMaxBy_eq_some {α β : Type} [LinearOrder β] (f : α → β) (x : α) (xs : List α) :
    firstMaxBy f (x :: xs) = some (xs.foldl (fun best y => if f best < f y then y else best) x) :=
  rfl

theorem foldl_firstMax_mem {α β : Type} [LinearOrder β] (f : α → β) (x : α) (xs : List α) :
    xs.foldl (fun best y => if f best < f y then y else best) x ∈ x :: xs := by
  induction xs generalizing x with
  | nil => simp [List.foldl]
  | cons y ys ih =>
    simp only [List.foldl]
    rcases Decidable.em (f x < f y) with h | h
    · simp only [if_pos h]
      have := ih y
      simp only [List.mem_cons] at this ⊢
      tauto
    · simp only [if_neg h]
      have := ih x
      simp only [List.mem_cons] at this ⊢
      tauto

theorem foldl_firstMax_le_init {α β : Type} [LinearOrder β] (f : α → β) (x : α) (xs : List α) :
    f x ≤ f (xs.foldl (fun best z => if f best < f z then z else best) x) := by
  induction xs generalizing x with
  | nil => simp [List.foldl]
  | cons z zs ih =>
    simp only [List.foldl]
    rcases Decidable.em (f x < f z) with h | h
    · simp only [if_pos h]
      exact le_trans (le_of_lt h) (ih z)
    · simp only [if_neg h]
      exact ih x

theorem foldl_firstMax_le {α β : Type} [LinearOrder β] (f : α → β) (x : α) (xs : List α) :
    ∀ y ∈ x :: xs, f y ≤ f (xs.foldl (fun best z => if f best < f z then z else best) x) := by
  induction xs generalizing x with
  | nil =>
    intro y hy
    simp only [List.mem_cons, List.not_mem_nil, or_false] at hy
    subst hy
    simp [List.foldl]
  | cons z zs ih =>
    intro y hy
    simp only [List.mem_cons] at hy
    simp only [List.foldl]
    rcases Decidable.em (f x < f z) with h | h
    · simp only [if_pos h]
      rcases hy with h1 | h1 | h1
      · exact h1 ▸ le_trans (le_of_lt h) (foldl_firstMax_le_init f z zs)
      · exact h1 ▸ foldl_firstMax_le_init f z zs
      · exact ih z y (List.mem_cons_of_mem z h1)
    · simp only [if_neg h]
      rcases hy with h1 | h1 | h1
      · exact h1 ▸ foldl_firstMax_le_init f x zs
      · exact h1 ▸ le_trans (not_lt.mp h) (foldl_firstMax_le_init f x zs)
      · exact ih x y (List.mem_cons_of_mem x h1)

theorem firstMaxBy_mem {α β : Type} [LinearOrder β] (f : α → β) (l : List α) (a : α)
    (h : firstMaxBy f l = some a) : a ∈ l := by
  cases l with
  | nil => simp [firstMaxBy] at h
  | cons x xs =>
    simp only [firstMaxBy, Option.some.injEq] at h
    subst h
    exact foldl_firstMax_mem f x xs

theorem firstMaxBy_is_max {α β : Type} [LinearOrder β] (f : α → β) (l : List α) (a : α)
    (h : firstMaxBy f l = some a) : ∀ y ∈ l, f y ≤ f a := by
  cases l with
  | nil => simp [firstMaxBy] at h
  | cons x xs =>
    simp only [firstMaxBy, Option.some.injEq] at h
    subst h
    exact foldl_firstMax_le f x xs

/-! Availability statistics: claim C8. -/

theorem mem_usableIntervals (dates : List Nat) (g : Nat)
    (h : g ∈ usableIntervals dates) : 0 < g ∧ g < 30 := by
  unfold usableIntervals at h
  rcases List.mem_filterMap.mp h with ⟨p, hp, hf⟩
  have hf2 : (if 0 < p.2 - p.1 ∧ p.2 - p.1 < 30 then some (p.2 - p.1) else none) = some g := hf
  by_cases hc : 0 < p.2 - p.1 ∧ p.2 - p.1 < 30
  · rw [if_pos hc] at hf2
    exact (Option.some.inj hf2) ▸ hc
  · rw [if_neg hc] at hf2
    exact absurd hf2 (by simp)

theorem usableIntervals_complete (dates : List Nat) (p : Nat × Nat)
    (hp : p ∈ dates.zip dates.tail) (h : 0 < p.2 - p.1 ∧ p.2 - p.1 < 30) :
    (p.2 - p.1) ∈ usableIntervals dates := by
  unfold usableIntervals
  exact List.mem_filterMap.mpr ⟨p, hp, by simp [h]⟩

theorem computeDriverStats_work_dates (sqrt : ℚ → ℚ) (history : List AvailRecord) :
    (computeDriverStats sqrt history).work_dates =
      if history.isEmpty then [] else sortAsc (history.filterMap (·.date)).dedup := by
  by_cases h0 : history.isEmpty
  · simp [computeDriverStats, h0]
  · simp only [computeDriverStats, eq_false h0, if_false]
    split_ifs <;> rfl

/-- **C8** (amended).  `_compute_driver_stats` sorts the distinct parsed
work dates, takes the consecutive gaps, keeps exactly the gaps strictly
between 0 and 30 days, and: with fewer than two distinct dates or no usable
gap it defaults to mean `3.0` and standard deviation `1.0`; otherwise the
reported interval is the mean of the usable gaps, and the reported standard
deviation is the population standard deviation of those gaps when there
are at least two of them, defaulting to `1.0` when there is exactly one
(so a single usable gap yields that gap as the mean, not the `3.0`
default). -/
theorem computeDriverStats_spec_C8 (sqrt : ℚ → ℚ) (history : List AvailRecord) :
    ((computeDriverStats sqrt history).work_dates.Pairwise (· < ·)) ∧
    ((computeDriverStats sqrt history).work_dates.Perm
      (history.filterMap (·.date)).dedup) ∧
    (∀ g ∈ usableIntervals (computeDriverStats sqrt history).work_dates, 0 < g ∧ g < 30) ∧
    (∀ p ∈ (computeDriverStats sqrt history).work_dates.zip
        (computeDriverStats sqrt history).work_dates.tail,
      0 < p.2 - p.1 ∧ p.2 - p.1 < 30 → (p.2 - p.1) ∈ usableIntervals (computeDriverStats sqrt history).work_dates) ∧
    (((computeDriverStats sqrt history).work_dates.length < 2 ∨
        usableIntervals (computeDriverStats sqrt history).work_dates = []) →
      (computeDriverStats sqrt history).rolling_interval = 3 ∧
      (computeDriverStats sqrt history).interval_std = 1) ∧
    ((2 ≤ (computeDriverStats sqrt history).work_dates.length ∧
        usableIntervals (computeDriverStats sqrt history).work_dates ≠ []) →
      (computeDriverStats sqrt history).rolling_interval =
        natMean (usableIntervals (computeDriverStats sqrt history).work_dates) ∧
      (computeDriverStats sqrt history).interval_std =
        (if 1 < (usableIntervals (computeDriverStats sqrt history).work_dates).length then
          sqrt (natPopVariance (usableIntervals (computeDriverStats sqrt history).work_dates))
        else 1)) := by
  have hwd := computeDriverStats_work_dates sqrt history
  have hsorted : (computeDriverStats sqrt history).work_dates.Pairwise (· < ·) := by
    rw [hwd]
    by_cases h0 : history.isEmpty
    · simp [h0]
    · simp only [eq_false h0, if_false]
      refine List.Sorted.lt_of_le (sortAsc_sorted _) ?_
      exact ((sortAsc_perm _).nodup_iff).mpr (List.nodup_dedup _)
  have hperm : (computeDriverStats sqrt history).work_dates.Perm
      (history.filterMap (·.date)).dedup := by
    rw [hwd]
    by_cases h0 : history.isEmpty
    · have : history = [] := List.isEmpty_iff.mp h0
      subst this
      simp
    · simp only [eq_false h0, if_false]
      exact sortAsc_perm _
  refine ⟨hsorted, hperm, fun g hg => mem_usableIntervals _ g hg,
    fun p hp h => usableIntervals_complete _ p hp h, ?_, ?_⟩
  · intro h
    by_cases h0 : history.isEmpty
    · simp [computeDriverStats, h0]
    · rcases h with h | h
      · rw [hwd] at h
        simp only [eq_false h0, if_false] at h
        simp only [computeDriverStats, eq_false h0, if_false]
        rw [if_neg (by omega)]
        exact ⟨rfl, rfl⟩
      · rw [hwd] at h
        simp only [eq_false h0, if_false] at h
        simp only [computeDriverStats, eq_false h0, if_false]
        split_ifs with h1 h2
        all_goals first
          | exact ⟨rfl, rfl⟩
          | exact absurd (List.isEmpty_iff.mpr h) (by assumption)
  · rintro ⟨h1, h2⟩
    by_cases h0 : history.isEmpty
    · rw [hwd] at h1
      simp [h0] at h1
    · rw [hwd] at h1 h2 ⊢
      simp only [eq_false h0, if_false] at h1 h2 ⊢
      simp only [computeDriverStats, eq_false h0, if_false]
      rw [if_pos h1, if_neg (by simpa using h2)]
      exact ⟨rfl, rfl⟩


theorem computeDriverStats_spec_C8_witness :
    (2 ≤ (computeDriverStats (fun _ => 0) c8history).work_dates.length ∧
      usableIntervals (computeDriverStats (fun _ => 0) c8history).work_dates ≠ []) ∧
    (computeDriverStats (fun _ => 0) c8history).rolling_interval =
      natMean (usableIntervals (computeDriverStats (fun _ => 0) c8history).work_dates) :=
  ⟨by decide,
    ((computeDriverStats_spec_C8 (fun _ => 0) c8history).2.2.2.2.2 (by decide)).1⟩

/-- **C8, counterexample to the claim as stated.**  For the claim's own
scenario `[day 1, day 2, day 45]` only one usable gap remains (fewer than
two), yet the computed interval is `1.0` — the mean of that single gap —
and not the `3.0` default the claim prescribes for "fewer than two usable
gaps". -/
theorem computeDriverStats_C8_counterexample :
    (usableIntervals (computeDriverStats (fun _ => 0) c8history).work_dates).length < 2 ∧
    (computeDriverStats (fun _ => 0) c8history).rolling_interval = 1 ∧
    ¬ (computeDriverStats (fun _ => 0) c8history).rolling_interval = 3 := by
  have hwd : sortAsc ((List.filterMap (fun x => x.date) c8history).dedup) = [1, 2, 45] := by
    decide
  have hiv : usableIntervals [1, 2, 45] = [1] := by decide
  have hne : (c8history.isEmpty = true) = False := by decide
  have hq : (computeDriverStats (fun _ => (0 : ℚ)) c8history).rolling_interval = 1 := by
    simp only [computeDriverStats, hwd, hiv, hne, if_false]
    norm_num [natMean]
  refine ⟨by decide, hq, ?_⟩
  rw [hq]
  norm_num

/-! Ownership idempotence: claim C9. -/

/-- **C9.**  Ownership classification is idempotent: two classification
runs over equal training histories — each run rebuilding the
`slot_ownership` state from its records — return the same
`predict_owner` outcome (same winner, including the tie-break winner, and
same confidence) and the same `get_ownership_distribution` record (same
owned/rotating verdict and owner).  The embedding is deterministic exactly
as the source is: dictionary iteration follows insertion order and the
8-week cutoff is held fixed within a run. -/
theorem ownership_idempotent_C9 (recs1 recs2 : List OwnRecord) (slot : SlotKey)
    (cutoff : String) (h : recs1 = recs2) :
    predictOwner recs1 slot cutoff = predictOwner recs2 slot cutoff ∧
    getOwnershipDistribution recs1 slot = getOwnershipDistribution recs2 slot := by
  subst h
  exact ⟨rfl, rfl⟩

theorem ownership_idempotent_C9_witness :
    predictOwner c9records slot1 "2024-12-01" = predictOwner c9records slot1 "2024-12-01" ∧
    getOwnershipDistribution c9records slot1 = getOwnershipDistribution c9records slot1 :=
  ownership_idempotent_C9 c9records c9records slot1 "2024-12-01" rfl

/-! Pattern-group threshold: claim C7. -/

/-- **C7.**  `cluster_drivers` attaches a pattern group — always one of
`sunWed` / `wedSat` / `mixed`, given that `_analyze_cluster_profiles` only
produces those labels (hypothesis `hprof`; its `.get(label, 'mixed')`
default is part of the embedding) — if and only if the driver has at least
`MIN_ASSIGNMENTS_FOR_PATTERN = 8` historical assignments; with 7 or fewer
the pattern group is `none` (reported as unknown), never a fabricated
label. -/
theorem cluster_drivers_threshold_C7 (sqrt : ℚ → ℚ) (labels : String → Nat)
    (clusterProfiles : List (Nat × String))
    (driverHistories : List (String × List PARecord))
    (hprof : ∀ p ∈ clusterProfiles, p.2 ∈ ["sunWed", "wedSat", "mixed"])
    (did : String) (prof : DriverProfile)
    (hmem : (did, prof) ∈ cluster_drivers sqrt labels clusterProfiles driverHistories) :
    (prof.patternGroup ≠ none ↔ 8 ≤ prof.assignmentsAnalyzed) ∧
    (∀ g, prof.patternGroup = some g → g ∈ ["sunWed", "wedSat", "mixed"]) ∧
    (∃ h ∈ driverHistories, h.1 = did ∧ h.2.length = prof.assignmentsAnalyzed) := by
  unfold cluster_drivers at hmem
  rcases List.mem_map.mp hmem with ⟨h, hh, heq⟩
  have hdid : h.1 = did := congrArg Prod.fst heq
  have hprofeq := congrArg Prod.snd heq
  simp only at hprofeq
  subst hprofeq
  refine ⟨?_, ?_, ⟨h, hh, hdid, rfl⟩⟩
  · by_cases hn : MIN_ASSIGNMENTS_FOR_PATTERN ≤ h.2.length
    · simp only [hn, if_pos]
      simpa [MIN_ASSIGNMENTS_FOR_PATTERN] using hn
    · simp only [if_neg hn]
      simpa [MIN_ASSIGNMENTS_FOR_PATTERN] using hn
  · intro g hg
    by_cases hn : MIN_ASSIGNMENTS_FOR_PATTERN ≤ h.2.length
    · simp only [if_pos hn] at hg
      have hg2 : (lookupAssoc clusterProfiles (labels h.1)).getD "mixed" = g :=
        Option.some.inj hg
      cases hl : lookupAssoc clusterProfiles (labels h.1) with
      | none =>
        rw [hl] at hg2
        simp at hg2
        simp [← hg2]
      | some v =>
        rw [hl] at hg2
        simp only [Option.getD_some] at hg2
        exact hg2 ▸ hprof _ (lookupAssoc_mem _ _ _ hl)
    · simp [if_neg hn] at hg

theorem cluster_drivers_threshold_C7_witness :
    (∃ prof : DriverProfile,
      ("D8", prof) ∈ cluster_drivers (fun _ => 0) (fun _ => 0) [(0, "sunWed")] c7histories ∧
      (prof.patternGroup ≠ none ↔ 8 ≤ prof.assignmentsAnalyzed) ∧
      prof.patternGroup = some "sunWed" ∧ prof.assignmentsAnalyzed = 8) ∧
    (∃ prof : DriverProfile,
      ("D7", prof) ∈ cluster_drivers (fun _ => 0) (fun _ => 0) [(0, "sunWed")] c7histories ∧
      prof.patternGroup = none ∧ prof.assignmentsAnalyzed = 7) := by
  constructor
  · refine ⟨⟨some "sunWed",
        (calculatePreferences (fun _ => 0) (List.replicate 8 c7rec)).days,
        (calculatePreferences (fun _ => 0) (List.replicate 8 c7rec)).times,
        (calculatePreferences (fun _ => 0) (List.replicate 8 c7rec)).contractType,
        (calculatePreferences (fun _ => 0) (List.replicate 8 c7rec)).consistency, 8⟩,
      ?_, ?_, rfl, rfl⟩
    · exact List.mem_map.mpr ⟨("D8", List.replicate 8 c7rec), by decide, rfl⟩
    · exact (cluster_drivers_threshold_C7 (fun _ => 0) (fun _ => 0) [(0, "sunWed")]
        c7histories (by decide) "D8" _
        (List.mem_map.mpr ⟨("D8", List.replicate 8 c7rec), by decide, rfl⟩)).1
  · refine ⟨⟨none,
        (calculatePreferences (fun _ => 0) (List.replicate 7 c7rec)).days,
        (calculatePreferences (fun _ => 0) (List.replicate 7 c7rec)).times,
        (calculatePreferences (fun _ => 0) (List.replicate 7 c7rec)).contractType,
        (calculatePreferences (fun _ => 0) (List.replicate 7 c7rec)).consistency, 7⟩,
      ?_, rfl, rfl⟩
    exact List.mem_map.mpr ⟨("D7", List.replicate 7 c7rec), by decide, rfl⟩

/-! Ownership distribution threshold: claim C4. -/

theorem distributionOf_spec (owners : List (String × List String))
    (h : 0 < (distributionOf owners).total_assignments) :
    (∀ p ∈ (distributionOf owners).shares, p.2 ≤ (distributionOf owners).owner_share) ∧
    (∃ p ∈ (distributionOf owners).shares, p.2 = (distributionOf owners).owner_share) ∧
    ((7 : ℚ) / 10 ≤ (distributionOf owners).owner_share →
      (distributionOf owners).slot_type = "owned" ∧
      ∃ p ∈ (distributionOf owners).shares,
        (distributionOf owners).owner = some p.1 ∧
        p.2 = (distributionOf owners).owner_share) ∧
    ((distributionOf owners).owner_share < 7 / 10 →
      (distributionOf owners).slot_type = "rotating" ∧
      (distributionOf owners).owner = none) := by
  by_cases hne : owners.isEmpty
  · exfalso
    rw [distributionOf, if_pos hne] at h
    exact absurd h (by simp [unknownDistribution])
  · by_cases ht : ((slotCounts owners).map (·.2)).sum = 0
    · exfalso
      rw [distributionOf, if_neg hne] at h
      simp only [ht, if_pos] at h
      exact absurd h (by simp [unknownDistribution])
    · have hsh : (slotCounts owners).map
          (fun p => (p.1, (p.2 : ℚ) / ((slotCounts owners).map (·.2)).sum)) ≠ [] := by
        intro hc
        apply hne
        have h1 : slotCounts owners = [] := by
          simpa using hc
        have h2 : owners = [] := by
          simpa [slotCounts] using h1
        simp [h2]
      obtain ⟨t, htk⟩ : ∃ t, firstMaxBy (fun p : String × ℚ => p.2)
          ((slotCounts owners).map
            (fun p => (p.1, (p.2 : ℚ) / ((slotCounts owners).map (·.2)).sum))) = some t := by
        cases hc : (slotCounts owners).map
            (fun p => (p.1, (p.2 : ℚ) / ((slotCounts owners).map (·.2)).sum)) with
        | nil => exact absurd hc hsh
        | cons a l => exact ⟨_, rfl⟩
      have hd : distributionOf owners =
          (if 7 / 10 ≤ t.2 then
            ⟨"owned", some t.1, t.2,
              (slotCounts owners).map
                (fun p => (p.1, (p.2 : ℚ) / ((slotCounts owners).map (·.2)).sum)),
              ((slotCounts owners).map (·.2)).sum⟩
          else
            ⟨"rotating", none, t.2,
              (slotCounts owners).map
                (fun p => (p.1, (p.2 : ℚ) / ((slotCounts owners).map (·.2)).sum)),
              ((slotCounts owners).map (·.2)).sum⟩ : OwnershipDistribution) := by
        rw [distributionOf, if_neg hne]
        simp only [ht, if_false, htk, Option.getD_some]
      rw [hd]
      by_cases hth : (7 : ℚ) / 10 ≤ t.2
      · rw [if_pos hth]
        refine ⟨firstMaxBy_is_max _ _ _ htk, ⟨t, firstMaxBy_mem _ _ _ htk, rfl⟩, ?_, ?_⟩
        · intro _
          exact ⟨rfl, ⟨t, firstMaxBy_mem _ _ _ htk, rfl, rfl⟩⟩
        · intro hlt
          exact absurd hth (not_le.mpr hlt)
      · rw [if_neg hth]
        refine ⟨firstMaxBy_is_max _ _ _ htk, ⟨t, firstMaxBy_mem _ _ _ htk, rfl⟩, ?_, ?_⟩
        · intro hge
          exact absurd hge hth
        · intro _
          exact ⟨rfl, rfl⟩

/-- **C4.**  For every slot with at least one historical occurrence,
`get_ownership_distribution` reports as `owner_share` the maximal share
among the per-driver shares; when that top share is at least `0.70` the
slot is classified `owned` with a top-share driver as the owner, and when
it is below `0.70` the slot is classified `rotating` with no owner. -/
theorem ownership_distribution_C4 (assignments : List OwnRecord) (slot : SlotKey)
    (h : 0 < (getOwnershipDistribution assignments slot).total_assignments) :
    (∀ p ∈ (getOwnershipDistribution assignments slot).shares,
      p.2 ≤ (getOwnershipDistribution assignments slot).owner_share) ∧
    (∃ p ∈ (getOwnershipDistribution assignments slot).shares,
      p.2 = (getOwnershipDistribution assignments slot).owner_share) ∧
    ((7 : ℚ) / 10 ≤ (getOwnershipDistribution assignments slot).owner_share →
      (getOwnershipDistribution assignments slot).slot_type = "owned" ∧
      ∃ p ∈ (getOwnershipDistribution assignments slot).shares,
        (getOwnershipDistribution assignments slot).owner = some p.1 ∧
        p.2 = (getOwnershipDistribution assignments slot).owner_share) ∧
    ((getOwnershipDistribution assignments slot).owner_share < 7 / 10 →
      (getOwnershipDistribution assignments slot).slot_type = "rotating" ∧
      (getOwnershipDistribution assignments slot).owner = none) := by
  cases hm : lookupAssoc (buildOwnership assignments) slot with
  | none =>
    exfalso
    rw [getOwnershipDistribution, hm] at h
    exact absurd h (by simp [unknownDistribution])
  | some owners =>
    have he : getOwnershipDistribution assignments slot = distributionOf owners := by
      rw [getOwnershipDistribution, hm]
    rw [he] at h ⊢
    exact distributionOf_spec owners h

theorem ownership_distribution_C4_witness :
    0 < (getOwnershipDistribution c4ownedRecs slot1).total_assignments ∧
    (∀ p ∈ (getOwnershipDistribution c4ownedRecs slot1).shares,
      p.2 ≤ (getOwnershipDistribution c4ownedRecs slot1).owner_share) ∧
    (getOwnershipDistribution c4ownedRecs slot1).slot_type = "owned" ∧
    (getOwnershipDistribution c4ownedRecs slot1).owner = some "X" ∧
    (getOwnershipDistribution c4ownedRecs slot1).owner_share = 7 / 10 ∧
    (getOwnershipDistribution c4rotRecs slot1).slot_type = "rotating" ∧
    (getOwnershipDistribution c4rotRecs slot1).owner = none := by
  have hm1 : lookupAssoc (buildOwnership c4ownedRecs) slot1 =
      some [("X", List.replicate 7 ""), ("Y", List.replicate 3 "")] := by decide
  have he1 : getOwnershipDistribution c4ownedRecs slot1 =
      distributionOf [("X", List.replicate 7 ""), ("Y", List.replicate 3 "")] := by
    rw [getOwnershipDistribution, hm1]
  have hd1 : distributionOf [("X", List.replicate 7 ""), ("Y", List.replicate 3 "")] =
      ⟨"owned", some "X", 7 / 10, [("X", 7 / 10), ("Y", 3 / 10)], 10⟩ := by
    rw [distributionOf, if_neg (by decide)]
    norm_num [slotCounts, firstMaxBy]
  have hm2 : lookupAssoc (buildOwnership c4rotRecs) slot1 =
      some [("X", List.replicate 69 ""), ("Y", List.replicate 31 "")] := by decide
  have he2 : getOwnershipDistribution c4rotRecs slot1 =
      distributionOf [("X", List.replicate 69 ""), ("Y", List.replicate 31 "")] := by
    rw [getOwnershipDistribution, hm2]
  have hd2 : distributionOf [("X", List.replicate 69 ""), ("Y", List.replicate 31 "")] =
      ⟨"rotating", none, 69 / 100, [("X", 69 / 100), ("Y", 31 / 100)], 100⟩ := by
    rw [distributionOf, if_neg (by decide)]
    norm_num [slotCounts, firstMaxBy]
  have hpos : 0 < (getOwnershipDistribution c4ownedRecs slot1).total_assignments := by
    rw [he1, hd1]
    norm_num
  refine ⟨hpos, (ownership_distribution_C4 c4ownedRecs slot1 hpos).1, ?_, ?_, ?_, ?_, ?_⟩
  · rw [he1, hd1]
  · rw [he1, hd1]
  · rw [he1, hd1]
  · rw [he2, hd2]
  · rw [he2, hd2]

/-! Ownership tie-break: claim C5. -/

/-- **C5.**  When two or more drivers are exactly tied for the maximum
total occurrence count at a slot, `predict_owner` recomputes each tied
driver's count restricted to dates on or after the 8-week cutoff
(`recentCount`) and returns a tied driver whose recent count is maximal
(Python's `max` takes the first such, so the outcome is deterministic for a
fixed history — never random per run, which claim C9's theorem states as a
two-run equality). -/
theorem predict_owner_C5 (assignments : List OwnRecord) (slot : SlotKey)
    (cutoff : String) (owners : List (String × List String))
    (hm : lookupAssoc (buildOwnership assignments) slot = some owners)
    (htie : 2 ≤ (tiedDrivers owners).length) :
    ∃ w conf, predictOwner assignments slot cutoff = some (w, conf) ∧
      w ∈ tiedDrivers owners ∧
      ∀ d ∈ tiedDrivers owners,
        recentCount owners d cutoff ≤ recentCount owners w cutoff := by
  have hneq : owners ≠ [] := by
    intro h0
    rw [h0] at htie
    simp [tiedDrivers, slotCounts, maxCount] at htie
  have hne : owners.isEmpty = false := by
    cases owners with
    | nil => exact absurd rfl hneq
    | cons a l => rfl
  obtain ⟨w, hw⟩ : ∃ w, firstMaxBy (fun d => recentCount owners d cutoff)
      (tiedDrivers owners) = some w := by
    cases hc : tiedDrivers owners with
    | nil =>
      rw [hc] at htie
      simp at htie
    | cons a l => exact ⟨_, rfl⟩
  refine ⟨w, ((lookupAssoc (slotCounts owners) w).getD 0 : ℚ) /
      (((slotCounts owners).map (·.2)).sum : ℚ), ?_,
    firstMaxBy_mem _ _ _ hw, firstMaxBy_is_max _ _ _ hw⟩
  have he : predictOwner assignments slot cutoff = predictOwnerSlot owners cutoff := by
    rw [predictOwner, hm]
  rw [he, predictOwnerSlot]
  simp only [hne, Bool.false_eq_true, if_false]
  rw [if_neg (by omega : ¬ (tiedDrivers owners).length = 1)]
  rw [hw, Option.getD_some]
  simp [Nat.cast_list_sum, List.map_map, Function.comp_def]

theorem predict_owner_C5_witness :
    lookupAssoc (buildOwnership c5recs) slot1 = some c5owners ∧
    2 ≤ (tiedDrivers c5owners).length ∧
    (∃ w conf, predictOwner c5recs slot1 "2025-01-01" = some (w, conf) ∧
      w ∈ tiedDrivers c5owners ∧
      ∀ d ∈ tiedDrivers c5owners,
        recentCount c5owners d "2025-01-01" ≤ recentCount c5owners w "2025-01-01") ∧
    (predictOwner c5recs slot1 "2025-01-01").map (fun p => p.1) = some "A" ∧
    recentCount c5owners "A" "2025-01-01" = 5 ∧
    recentCount c5owners "B" "2025-01-01" = 1 :=
  ⟨by decide, by decide,
    predict_owner_C5 c5recs slot1 "2025-01-01" c5owners (by decide) (by decide),
    by decide, by decide, by decide⟩

/-! Optimizer decoding lemmas. -/

theorem length_filterMap_if {α β : Type} (l : List α) (q : α → Bool) (g : α → β) :
    (l.filterMap (fun x => if q x then some (g x) else none)).length = l.countP q := by
  induction l with
  | nil => rfl
  | cons x xs ih =>
    rw [List.filterMap_cons, List.countP_cons]
    by_cases h : q x = true
    · simp only [h, if_true]
      simp [ih]
    · simp only [h, if_false]
      simp [ih, h]

theorem countP_enum_fst {α : Type} (l : List α) (q : Nat → Bool) :
    l.enum.countP (fun p => q p.1) = (List.range l.length).countP q := by
  rw [← List.enum_map_fst l, List.countP_map]
  rfl

theorem map_enum_fst {α β : Type} (l : List α) (g : Nat → β) :
    l.enum.map (fun p => g p.1) = (List.range l.length).map g := by
  rw [← List.enum_map_fst l, List.map_map]
  rfl

theorem countP_range_eq_sum (n : Nat) (q : Nat → Bool) :
    (List.range n).countP q = ∑ i ∈ Finset.range n, (if q i then 1 else 0) := by
  induction n with
  | zero => rfl
  | succ n ih =>
    rw [List.range_succ, List.countP_append, ih, Finset.sum_range_succ]
    simp [List.countP_cons]

theorem sum_map_range (n : Nat) (f : Nat → Nat) :
    ((List.range n).map f).sum = ∑ i ∈ Finset.range n, f i := by
  induction n with
  | zero => rfl
  | succ n ih =>
    rw [List.range_succ, List.map_append, List.sum_append, ih, Finset.sum_range_succ]
    simp

theorem exactlyOneOK_countP (nD nB : Nat) (val : Nat → Nat → Bool)
    (hx : exactlyOneOK nD nB val = true) (b : Nat) (hb : b < nB) :
    (List.range nD).countP (fun d => val d b) = 1 := by
  unfold exactlyOneOK at hx
  rw [List.all_eq_true] at hx
  have := hx b (List.mem_range.mpr hb)
  exact of_decide_eq_true this

theorem decodeAssignments_length (drivers : List Driver) (blocks : List Block)
    (r : SolverResult) (hd : decodable r.status = true)
    (hx : exactlyOneOK drivers.length blocks.length r.val = true) :
    (decodeAssignments drivers blocks r).length = blocks.length := by
  unfold decodeAssignments
  rw [if_pos hd, List.length_flatMap]
  have h1 : (drivers.enum.map (List.length ∘ fun dp =>
      blocks.enum.filterMap fun bp =>
        if r.val dp.1 bp.1 then some (mkAssignment dp.2 bp.2) else none)) =
      drivers.enum.map (fun dp => (List.range blocks.length).countP (fun b => r.val dp.1 b)) := by
    apply List.map_congr_left
    intro dp _
    simp only [Function.comp_apply]
    rw [length_filterMap_if, countP_enum_fst]
  rw [h1, map_enum_fst drivers (fun d => (List.range blocks.length).countP (fun b => r.val d b)),
    sum_map_range]
  have h2 : ∀ d ∈ Finset.range drivers.length,
      (List.range blocks.length).countP (fun b => r.val d b) =
        ∑ b ∈ Finset.range blocks.length, (if r.val d b then 1 else 0) :=
    fun d _ => countP_range_eq_sum _ _
  rw [Finset.sum_congr rfl h2, Finset.sum_comm]
  have h3 : ∀ b ∈ Finset.range blocks.length,
      (∑ d ∈ Finset.range drivers.length, (if r.val d b then 1 else 0)) = 1 := by
    intro b hb
    rw [← countP_range_eq_sum]
    exact exactlyOneOK_countP _ _ _ hx b (Finset.mem_range.mp hb)
  rw [Finset.sum_congr rfl h3]
  simp

theorem decodeAssignments_mem (drivers : List Driver) (blocks : List Block)
    (r : SolverResult) (a : Assignment)
    (ha : a ∈ decodeAssignments drivers blocks r) :
    ∃ d ∈ drivers, ∃ b ∈ blocks, a = mkAssignment d b := by
  unfold decodeAssignments at ha
  by_cases hd : decodable r.status = true
  · rw [if_pos hd] at ha
    rcases List.mem_flatMap.mp ha with ⟨dp, hdp, hin⟩
    rcases List.mem_filterMap.mp hin with ⟨bp, hbp, hf⟩
    have hf2 : (if r.val dp.1 bp.1 then some (mkAssignment dp.2 bp.2) else none) = some a := hf
    by_cases hv : r.val dp.1 bp.1 = true
    · rw [if_pos hv] at hf2
      refine ⟨dp.2, ?_, bp.2, ?_, (Option.some.inj hf2).symm⟩
      · exact List.getElem?_mem (List.mem_enum_iff_getElem?.mp hdp)
      · exact List.getElem?_mem (List.mem_enum_iff_getElem?.mp hbp)
    · rw [if_neg hv] at hf2
      exact absurd hf2 (by simp)
  · rw [if_neg hd] at ha
    exact absurd ha (List.not_mem_nil a)

theorem decodeAssignments_covers (drivers : List Driver) (blocks : List Block)
    (r : SolverResult) (hd : decodable r.status = true)
    (hx : exactlyOneOK drivers.length blocks.length r.val = true) :
    ∀ b ∈ blocks, ∃ a ∈ decodeAssignments drivers blocks r, a.blockId = b.id := by
  intro b hb
  rcases List.mem_iff_getElem.mp hb with ⟨i, hi, hbi⟩
  have hx2 := exactlyOneOK_countP _ _ _ hx i hi
  have hpos : 0 < (List.range drivers.length).countP (fun d => r.val d i) := by omega
  rcases List.countP_pos.mp hpos with ⟨d, hdmem, hdval⟩
  have hd2 : d < drivers.length := List.mem_range.mp hdmem
  refine ⟨mkAssignment drivers[d] b, ?_, rfl⟩
  unfold decodeAssignments
  rw [if_pos hd]
  apply List.mem_flatMap.mpr
  refine ⟨(d, drivers[d]), ?_, ?_⟩
  · exact List.mem_enum_iff_getElem?.mpr (by simp [List.getElem?_eq_getElem hd2])
  · apply List.mem_filterMap.mpr
    refine ⟨(i, b), ?_, ?_⟩
    · exact List.mem_enum_iff_getElem?.mpr (by simp [List.getElem?_eq_getElem hi, hbi])
    · show (if r.val d i then some (mkAssignment drivers[d] b) else none) = _
      rw [if_pos hdval]

theorem decodeAssignments_not_decodable (drivers : List Driver) (blocks : List Block)
    (r : SolverResult) (hd : decodable r.status = false) :
    decodeAssignments drivers blocks r = [] := by
  unfold decodeAssignments
  rw [if_neg (by simp [hd])]

theorem decodeUnassigned_nil (blocks : List Block) :
    decodeUnassigned blocks [] = blocks.map (·.id) := by
  unfold decodeUnassigned
  simp

theorem decodeUnassigned_of_covered (blocks : List Block) (assigns : List Assignment)
    (hc : ∀ b ∈ blocks, ∃ a ∈ assigns, a.blockId = b.id) :
    decodeUnassigned blocks assigns = [] := by
  unfold decodeUnassigned
  have : blocks.filter (fun b => ¬ b.id ∈ assigns.map (·.blockId)) = [] := by
    rw [List.filter_eq_nil_iff]
    intro b hb
    rcases hc b hb with ⟨a, ha, haid⟩
    simp only [decide_not, Bool.not_eq_true', decide_eq_false_iff_not, not_not]
    exact List.mem_map.mpr ⟨a, ha, haid⟩
  rw [this]
  rfl

theorem decodable_eq_false {s : SolveStatus} (h : ¬ decodable s = true) :
    decodable s = false := by
  cases hb : decodable s
  · rfl
  · exact absurd hb h

theorem decode_counts (drivers : List Driver) (blocks : List Block) (r : SolverResult)
    (hsol : decodable r.status = true →
      exactlyOneOK drivers.length blocks.length r.val = true) :
    (decodeAssignments drivers blocks r).length +
      (decodeUnassigned blocks (decodeAssignments drivers blocks r)).length =
      blocks.length := by
  by_cases hd : decodable r.status = true
  · rw [decodeAssignments_length _ _ _ hd (hsol hd),
      decodeUnassigned_of_covered _ _ (decodeAssignments_covers _ _ _ hd (hsol hd))]
    simp
  · rw [decodeAssignments_not_decodable _ _ _ (decodable_eq_false hd), decodeUnassigned_nil]
    simp

theorem decode_covers (drivers : List Driver) (blocks : List Block) (r : SolverResult)
    (hsol : decodable r.status = true →
      exactlyOneOK drivers.length blocks.length r.val = true) :
    ∀ b ∈ blocks,
      (∃ a ∈ decodeAssignments drivers blocks r, a.blockId = b.id) ∨
      b.id ∈ decodeUnassigned blocks (decodeAssignments drivers blocks r) := by
  intro b hb
  by_cases hd : decodable r.status = true
  · exact Or.inl (decodeAssignments_covers _ _ _ hd (hsol hd) b hb)
  · right
    rw [decodeAssignments_not_decodable _ _ _ (decodable_eq_false hd), decodeUnassigned_nil]
    exact List.mem_map.mpr ⟨b, hb, rfl⟩

theorem partSolve_counts (eligible : List Driver) (blocks : List Block)
    (solvers : String → SolverResult) (ct : String)
    (hsol : decodable (solvers ct).status = true →
      exactlyOneOK (ctDrivers eligible ct).length (ctBlocks blocks ct).length
        (solvers ct).val = true) :
    (partSolve eligible blocks solvers ct).1.length +
      (partSolve eligible blocks solvers ct).2.length = (ctBlocks blocks ct).length := by
  unfold partSolve
  by_cases h1 : (ctBlocks blocks ct).isEmpty
  · rw [if_pos h1]
    simp [List.isEmpty_iff.mp h1]
  · rw [if_neg h1]
    by_cases h2 : (ctDrivers eligible ct).isEmpty
    · rw [if_pos h2]
      simp
    · rw [if_neg h2]
      unfold solve_contract_type
      exact decode_counts _ _ _ hsol

theorem partSolve_covers (eligible : List Driver) (blocks : List Block)
    (solvers : String → SolverResult) (ct : String)
    (hsol : decodable (solvers ct).status = true →
      exactlyOneOK (ctDrivers eligible ct).length (ctBlocks blocks ct).length
        (solvers ct).val = true) :
    ∀ b ∈ ctBlocks blocks ct,
      (∃ a ∈ (partSolve eligible blocks solvers ct).1, a.blockId = b.id) ∨
      b.id ∈ (partSolve eligible blocks solvers ct).2 := by
  intro b hb
  unfold partSolve
  by_cases h1 : (ctBlocks blocks ct).isEmpty
  · rw [List.isEmpty_iff.mp h1] at hb
    exact absurd hb (List.not_mem_nil b)
  · rw [if_neg h1]
    by_cases h2 : (ctDrivers eligible ct).isEmpty
    · rw [if_pos h2]
      exact Or.inr (List.mem_map.mpr ⟨b, hb, rfl⟩)
    · rw [if_neg h2]
      unfold solve_contract_type
      exact decode_covers _ _ _ hsol b hb

theorem partSolve_mem (eligible : List Driver) (blocks : List Block)
    (solvers : String → SolverResult) (ct : String) (a : Assignment)
    (ha : a ∈ (partSolve eligible blocks solvers ct).1) :
    ∃ d ∈ ctDrivers eligible ct, ∃ b ∈ ctBlocks blocks ct, a = mkAssignment d b := by
  unfold partSolve at ha
  by_cases h1 : (ctBlocks blocks ct).isEmpty
  · rw [if_pos h1] at ha
    exact absurd ha (List.not_mem_nil a)
  · rw [if_neg h1] at ha
    by_cases h2 : (ctDrivers eligible ct).isEmpty
    · rw [if_pos h2] at ha
      exact absurd ha (List.not_mem_nil a)
    · rw [if_neg h2] at ha
      exact decodeAssignments_mem _ _ _ a ha

theorem mem_ctBlocks (blocks : List Block) (b : Block) (hb : b ∈ blocks) :
    b ∈ ctBlocks blocks (normCT b.contractType) :=
  List.mem_filter.mpr ⟨hb, by simp⟩

theorem ctBlocks_partition (blocks : List Block)
    (hct : ∀ b ∈ blocks, normCT b.contractType ∈ CONTRACT_TYPES) :
    (ctBlocks blocks "solo1").length + (ctBlocks blocks "solo2").length +
      (ctBlocks blocks "team").length = blocks.length := by
  induction blocks with
  | nil => rfl
  | cons b bs ih =>
    have hb := hct b (List.mem_cons_self b bs)
    have ih2 := ih (fun x hx => hct x (List.mem_cons_of_mem b hx))
    simp only [CONTRACT_TYPES, List.mem_cons, List.not_mem_nil, or_false] at hb
    unfold ctBlocks at ih2 ⊢
    rw [List.filter_cons, List.filter_cons, List.filter_cons]
    rcases hb with h | h | h
    · rw [h]
      rw [if_pos (by decide), if_neg (by decide), if_neg (by decide)]
      simp only [List.length_cons]
      omega
    · rw [h]
      rw [if_neg (by decide), if_pos (by decide), if_neg (by decide)]
      simp only [List.length_cons]
      omega
    · rw [h]
      rw [if_neg (by decide), if_neg (by decide), if_pos (by decide)]
      simp only [List.length_cons]
      omega

theorem optimize_schedule_assignments (drivers : List Driver) (blocks : List Block)
    (minDays : Nat) (histories : List (String × Nat)) (solvers : String → SolverResult)
    (hb : blocks.isEmpty = false) :
    (optimize_schedule drivers blocks minDays histories solvers).assignments =
      (partSolve (eligibleDrivers drivers histories) blocks solvers "solo1").1 ++
      ((partSolve (eligibleDrivers drivers histories) blocks solvers "solo2").1 ++
       ((partSolve (eligibleDrivers drivers histories) blocks solvers "team").1 ++ [])) := by
  rw [optimize_schedule, if_neg (by simp [hb])]
  rfl

theorem optimize_schedule_unassigned (drivers : List Driver) (blocks : List Block)
    (minDays : Nat) (histories : List (String × Nat)) (solvers : String → SolverResult)
    (hb : blocks.isEmpty = false) :
    (optimize_schedule drivers blocks minDays histories solvers).unassigned =
      (partSolve (eligibleDrivers drivers histories) blocks solvers "solo1").2 ++
      ((partSolve (eligibleDrivers drivers histories) blocks solvers "solo2").2 ++
       ((partSolve (eligibleDrivers drivers histories) blocks solvers "team").2 ++ [])) := by
  rw [optimize_schedule, if_neg (by simp [hb])]
  rfl

/-- **C1** (amended).  For the `optimize` action, provided every input
block's normalized contract type is one of the three known partitions
(`solo1` / `solo2` / `team` — a block of any other contract type is
silently dropped from both output lists, see the counterexample), and for
every `optimize_with_scores` invocation: whenever the solver respects the
posted exactly-one-driver-per-block constraint on each partition it
decodes, the number of emitted Assignments plus the number of unassigned
block ids equals the number of input blocks, and every input block id
appears in the assignments or in the unassigned list. -/
theorem optimize_counts_C1 (drivers : List Driver) (blocks : List Block)
    (minDays : Nat) (histories : List (String × Nat)) (solvers : String → SolverResult)
    (pdrivers : List Driver) (pblocks : List Block)
    (scoreMatrix : List (String × List (String × ℚ))) (pminDays : Nat)
    (psolver : SolverResult)
    (hct : ∀ b ∈ blocks, normCT b.contractType ∈ CONTRACT_TYPES)
    (hsol : ∀ ct ∈ CONTRACT_TYPES, decodable (solvers ct).status = true →
      exactlyOneOK (ctDrivers (eligibleDrivers drivers histories) ct).length
        (ctBlocks blocks ct).length (solvers ct).val = true)
    (hpsol : decodable psolver.status = true →
      exactlyOneOK pdrivers.length pblocks.length psolver.val = true) :
    ((optimize_schedule drivers blocks minDays histories solvers).assignments.length +
        (optimize_schedule drivers blocks minDays histories solvers).unassigned.length =
        blocks.length ∧
      ∀ b ∈ blocks,
        (∃ a ∈ (optimize_schedule drivers blocks minDays histories solvers).assignments,
          a.blockId = b.id) ∨
        b.id ∈ (optimize_schedule drivers blocks minDays histories solvers).unassigned) ∧
    ((optimize_with_precomputed_scores pdrivers pblocks scoreMatrix pminDays
          psolver).assignments.length +
        (optimize_with_precomputed_scores pdrivers pblocks scoreMatrix pminDays
          psolver).unassigned.length = pblocks.length ∧
      ∀ b ∈ pblocks,
        (∃ a ∈ (optimize_with_precomputed_scores pdrivers pblocks scoreMatrix pminDays
            psolver).assignments, a.blockId = b.id) ∨
        b.id ∈ (optimize_with_precomputed_scores pdrivers pblocks scoreMatrix pminDays
            psolver).unassigned) := by
  constructor
  · by_cases hb0 : blocks.isEmpty
    · have hbe : blocks = [] := List.isEmpty_iff.mp hb0
      subst hbe
      exact ⟨by rw [optimize_schedule]; simp, fun b hb => absurd hb (List.not_mem_nil b)⟩
    · have hb : blocks.isEmpty = false := by
        cases h : blocks.isEmpty
        · rfl
        · exact absurd h hb0
      have ha := optimize_schedule_assignments drivers blocks minDays histories solvers hb
      have hu := optimize_schedule_unassigned drivers blocks minDays histories solvers hb
      have l1 := partSolve_counts (eligibleDrivers drivers histories) blocks solvers
        "solo1" (hsol "solo1" (by simp [CONTRACT_TYPES]))
      have l2 := partSolve_counts (eligibleDrivers drivers histories) blocks solvers
        "solo2" (hsol "solo2" (by simp [CONTRACT_TYPES]))
      have l3 := partSolve_counts (eligibleDrivers drivers histories) blocks solvers
        "team" (hsol "team" (by simp [CONTRACT_TYPES]))
      have hp := ctBlocks_partition blocks hct
      constructor
      · rw [ha, hu]
        simp only [List.length_append, List.length_nil]
        omega
      · intro b hbm
        have hbt := hct b hbm
        simp only [CONTRACT_TYPES, List.mem_cons, List.not_mem_nil, or_false] at hbt
        have hcb := mem_ctBlocks blocks b hbm
        rw [ha, hu]
        rcases hbt with h | h | h
        · rcases partSolve_covers (eligibleDrivers drivers histories) blocks solvers
              "solo1" (hsol "solo1" (by simp [CONTRACT_TYPES])) b (h ▸ hcb) with ⟨a, hax, haid⟩ | hum
          · exact Or.inl ⟨a, by simp only [List.mem_append]; exact Or.inl hax, haid⟩
          · refine Or.inr ?_
            simp only [List.mem_append]
            exact Or.inl hum
        · rcases partSolve_covers (eligibleDrivers drivers histories) blocks solvers
              "solo2" (hsol "solo2" (by simp [CONTRACT_TYPES])) b (h ▸ hcb) with ⟨a, hax, haid⟩ | hum
          · exact Or.inl ⟨a, by simp only [List.mem_append]; exact Or.inr (Or.inl hax), haid⟩
          · refine Or.inr ?_
            simp only [List.mem_append]
            exact Or.inr (Or.inl hum)
        · rcases partSolve_covers (eligibleDrivers drivers histories) blocks solvers
              "team" (hsol "team" (by simp [CONTRACT_TYPES])) b (h ▸ hcb) with ⟨a, hax, haid⟩ | hum
          · exact Or.inl ⟨a, by simp only [List.mem_append]; exact Or.inr (Or.inr (Or.inl hax)),
              haid⟩
          · refine Or.inr ?_
            simp only [List.mem_append]
            exact Or.inr (Or.inr (Or.inl hum))
  · by_cases h0 : (pblocks.isEmpty || pdrivers.isEmpty) = true
    · rw [optimize_with_precomputed_scores, if_pos h0]
      constructor
      · simp
      · intro b hb
        exact Or.inr (List.mem_map.mpr ⟨b, hb, rfl⟩)
    · rw [optimize_with_precomputed_scores, if_neg h0]
      exact ⟨decode_counts pdrivers pblocks psolver hpsol,
        decode_covers pdrivers pblocks psolver hpsol⟩

theorem optimize_counts_C1_witness :
    (∀ b ∈ [w1block], normCT b.contractType ∈ CONTRACT_TYPES) ∧
    (optimize_schedule [w1driver] [w1block] 3 w1histories
        (fun _ => okSolver)).assignments.length +
      (optimize_schedule [w1driver] [w1block] 3 w1histories
        (fun _ => okSolver)).unassigned.length = 1 ∧
    (∀ b ∈ [w1block],
      (∃ a ∈ (optimize_schedule [w1driver] [w1block] 3 w1histories
          (fun _ => okSolver)).assignments, a.blockId = b.id) ∨
      b.id ∈ (optimize_schedule [w1driver] [w1block] 3 w1histories
          (fun _ => okSolver)).unassigned) := by
  have hct : ∀ b ∈ [w1block], normCT b.contractType ∈ CONTRACT_TYPES := by decide
  have hsol : ∀ ct ∈ CONTRACT_TYPES, decodable ((fun _ => okSolver) ct).status = true →
      exactlyOneOK (ctDrivers (eligibleDrivers [w1driver] w1histories) ct).length
        (ctBlocks [w1block] ct).length ((fun _ => okSolver) ct).val = true := by
    intro ct hc
    simp only [CONTRACT_TYPES, List.mem_cons, List.not_mem_nil, or_false] at hc
    rcases hc with h | h | h <;> subst h <;> exact fun _ => by decide
  have hmain := optimize_counts_C1 [w1driver] [w1block] 3 w1histories (fun _ => okSolver)
    [w1driver] [w1block] [] 3 okSolver hct hsol (fun _ => by decide)
  exact ⟨hct, hmain.1.1, hmain.1.2⟩

/-- **C1, counterexample to the claim as stated.**  A block whose contract
type is not one of `solo1` / `solo2` / `team` is silently dropped by the
`optimize` action: it appears in neither the assignments nor the
unassigned list, so 0 assignments + 0 unassigned ≠ 1 total block. -/
theorem optimize_schedule_dropped_block_C1 :
    (optimize_schedule [] [c1badBlock] 3 [] (fun _ => okSolver)).assignments = [] ∧
    (optimize_schedule [] [c1badBlock] 3 [] (fun _ => okSolver)).unassigned = [] ∧
    (optimize_schedule [] [c1badBlock] 3 [] (fun _ => okSolver)).stats.totalBlocks = 1 := by
  decide

theorem part_assignment_provenance (drivers : List Driver)
    (histories : List (String × Nat)) (blocks : List Block)
    (solvers : String → SolverResult) (ct : String) (a : Assignment)
    (ha : a ∈ (partSolve (eligibleDrivers drivers histories) blocks solvers ct).1) :
    ∃ d ∈ drivers, ∃ b ∈ blocks,
      a.driverId = d.id ∧ a.blockId = b.id ∧
      normCT d.contractType = normCT b.contractType ∧
      1 ≤ histCount histories d.id := by
  rcases partSolve_mem _ _ _ _ _ ha with ⟨d, hd, b, hb, rfl⟩
  rcases List.mem_filter.mp hd with ⟨hel, hdct⟩
  rcases List.mem_filter.mp hel with ⟨hdr, hh⟩
  rcases List.mem_filter.mp hb with ⟨hbl, hbct⟩
  refine ⟨d, hdr, b, hbl, rfl, rfl, ?_, ?_⟩
  · rw [of_decide_eq_true hdct, of_decide_eq_true hbct]
  · exact of_decide_eq_true hh

theorem optimize_assignment_provenance (drivers : List Driver) (blocks : List Block)
    (minDays : Nat) (histories : List (String × Nat))
    (solvers : String → SolverResult) (a : Assignment)
    (ha : a ∈ (optimize_schedule drivers blocks minDays histories solvers).assignments) :
    ∃ d ∈ drivers, ∃ b ∈ blocks,
      a.driverId = d.id ∧ a.blockId = b.id ∧
      normCT d.contractType = normCT b.contractType ∧
      1 ≤ histCount histories d.id := by
  by_cases hb0 : blocks.isEmpty
  · exfalso
    have hbe : blocks = [] := List.isEmpty_iff.mp hb0
    subst hbe
    rw [optimize_schedule] at ha
    simp at ha
  · have hb : blocks.isEmpty = false := by
      cases h : blocks.isEmpty
      · rfl
      · exact absurd h hb0
    rw [optimize_schedule_assignments drivers blocks minDays histories solvers hb] at ha
    simp only [List.mem_append, List.not_mem_nil, or_false] at ha
    rcases ha with h | h | h <;>
      exact part_assignment_provenance drivers histories blocks solvers _ a h

/-- **C2** (amended).  For the `optimize` action, every emitted Assignment
pairs a driver and a block whose normalized contract types (lowercased,
defaulting to `solo1` when absent or empty) are equal — partitioning makes
blocks and drivers of different contract types never interact.  The
`optimize_with_scores` action, by contrast, posts no contract-type
constraint at all and can emit an Assignment pairing a driver and a block
of differing contract types (see the counterexample). -/
theorem optimize_contract_match_C2 (drivers : List Driver) (blocks : List Block)
    (minDays : Nat) (histories : List (String × Nat))
    (solvers : String → SolverResult) :
    ∀ a ∈ (optimize_schedule drivers blocks minDays histories solvers).assignments,
      ∃ d ∈ drivers, ∃ b ∈ blocks,
        a.driverId = d.id ∧ a.blockId = b.id ∧
        normCT d.contractType = normCT b.contractType := by
  intro a ha
  rcases optimize_assignment_provenance drivers blocks minDays histories solvers a ha with
    ⟨d, hd, b, hb, h1, h2, h3, _⟩
  exact ⟨d, hd, b, hb, h1, h2, h3⟩

theorem optimize_contract_match_C2_witness :
    (optimize_schedule [w1driver] [w1block] 3 w1histories
        (fun _ => okSolver)).assignments = [mkAssignment w1driver w1block] ∧
    ∃ d ∈ [w1driver], ∃ b ∈ [w1block],
      (mkAssignment w1driver w1block).driverId = d.id ∧
      (mkAssignment w1driver w1block).blockId = b.id ∧
      normCT d.contractType = normCT b.contractType := by
  have hm : (optimize_schedule [w1driver] [w1block] 3 w1histories
      (fun _ => okSolver)).assignments = [mkAssignment w1driver w1block] := by decide
  refine ⟨hm, optimize_contract_match_C2 [w1driver] [w1block] 3 w1histories
    (fun _ => okSolver) (mkAssignment w1driver w1block) ?_⟩
  rw [hm]
  exact List.mem_cons_self _ _

theorem exactlyOne_forces_single (val : Nat → Nat → Bool)
    (h : exactlyOneOK 1 1 val = true) : val 0 0 = true := by
  unfold exactlyOneOK at h
  have h0 := of_decide_eq_true ((List.all_eq_true.mp h) 0 (by decide))
  by_cases hv : val 0 0 = true
  · exact hv
  · exfalso
    rw [show List.range 1 = [0] from rfl] at h0
    simp [List.countP_cons, hv] at h0

/-- **C2, counterexample to the claim as stated.**  The
`optimize_with_scores` action enforces no contract-type compatibility: with
one solo2 driver and one solo1 block, the posted constraints force the only
feasible valuation to pair them (third conjunct), that valuation satisfies
every posted constraint (first conjunct), and decoding it emits an
Assignment whose driver and block contract types differ. -/
theorem optimize_with_scores_ct_mismatch_C2 :
    pcConstraintsOK [c2driver] [c2block] 3 okSolver.val = true ∧
    (∀ val : Nat → Nat → Bool, exactlyOneOK 1 1 val = true → val 0 0 = true) ∧
    (optimize_with_precomputed_scores [c2driver] [c2block] [] 3 okSolver).assignments =
      [mkAssignment c2driver c2block] ∧
    normCT c2driver.contractType ≠ normCT c2block.contractType := by
  refine ⟨by decide, exactlyOne_forces_single, by decide, by decide⟩

/-- **C3** (amended).  For the `optimize` action, every emitted Assignment
names a driver id with at least `MIN_HISTORY_FOR_ASSIGNMENT = 1` history
records — a driver with zero historical records is filtered out before the
solve and never appears.  The `optimize_with_scores` action performs no
history-based eligibility filtering (it does not even receive histories):
any driver in its input can be assigned regardless of history (see the
counterexample). -/
theorem optimize_history_filter_C3 (drivers : List Driver) (blocks : List Block)
    (minDays : Nat) (histories : List (String × Nat))
    (solvers : String → SolverResult) :
    ∀ a ∈ (optimize_schedule drivers blocks minDays histories solvers).assignments,
      1 ≤ histCount histories a.driverId := by
  intro a ha
  rcases optimize_assignment_provenance drivers blocks minDays histories solvers a ha with
    ⟨d, _, b, _, h1, _, _, h4⟩
  rw [h1]
  exact h4

theorem optimize_history_filter_C3_witness :
    (optimize_schedule [w1driver] [w1block] 3 w1histories
        (fun _ => okSolver)).assignments = [mkAssignment w1driver w1block] ∧
    1 ≤ histCount w1histories (mkAssignment w1driver w1block).driverId := by
  have hm : (optimize_schedule [w1driver] [w1block] 3 w1histories
      (fun _ => okSolver)).assignments = [mkAssignment w1driver w1block] := by decide
  refine ⟨hm, optimize_history_filter_C3 [w1driver] [w1block] 3 w1histories
    (fun _ => okSolver) (mkAssignment w1driver w1block) ?_⟩
  rw [hm]
  exact List.mem_cons_self _ _

/-- **C3, counterexample to the claim as stated.**  A driver with zero
history records: the `optimize` action excludes them (with empty histories
the block goes unassigned), but the `optimize_with_scores` action — which
receives no histories at all — assigns them: the posted constraints force
the only feasible valuation to choose the driver (second conjunct), that
valuation satisfies every posted constraint (first conjunct), and the
decoded result names the zero-history driver. -/
theorem optimize_with_scores_no_history_filter_C3 :
    pcConstraintsOK [c3driver] [c3block] 3 okSolver.val = true ∧
    (∀ val : Nat → Nat → Bool, exactlyOneOK 1 1 val = true → val 0 0 = true) ∧
    (optimize_schedule [c3driver] [c3block] 3 [] (fun _ => okSolver)).assignments = [] ∧
    (optimize_schedule [c3driver] [c3block] 3 [] (fun _ => okSolver)).unassigned = ["B3"] ∧
    (optimize_with_precomputed_scores [c3driver] [c3block] [] 3 okSolver).assignments =
      [mkAssignment c3driver c3block] ∧
    histCount [] (mkAssignment c3driver c3block).driverId = 0 := by
  refine ⟨by decide, exactlyOne_forces_single, by decide, by decide, by decide, by decide⟩

/-! Driver-pattern lemmas: claim C10. -/

theorem dayTotals_foldl (name : String) (m : Ownership) (acc : List (Nat × Nat))
    (dow : Nat) :
    (lookupAssoc (m.foldl (dayTotalsStep name) acc) dow).getD 0 =
      (lookupAssoc acc dow).getD 0 + dayTotalFn m name dow := by
  induction m generalizing acc with
  | nil => simp [dayTotalFn]
  | cons p rest ih =>
    rw [List.foldl_cons, ih]
    unfold dayTotalFn
    rw [List.filter_cons]
    unfold dayTotalsStep
    cases hl : lookupAssoc p.2 name with
    | none =>
      by_cases hdow : p.1.dayOfWeek = dow
      · rw [if_pos (by simp [hdow])]
        simp [hl]
      · rw [if_neg (by simp [hdow])]
    | some dates =>
      by_cases hdow : p.1.dayOfWeek = dow
      · rw [if_pos (by simp [hdow]), hdow, lookupAssoc_updAssoc_self]
        simp only [Option.getD_some, List.map_cons, List.sum_cons, hl]
        try omega
      · rw [if_neg (by simp [hdow]),
          lookupAssoc_updAssoc_other _ _ _ _ _ (fun h => hdow h.symm)]

theorem lookup_dayTotals (m : Ownership) (name : String) (dow : Nat) :
    (lookupAssoc (dayTotalsOf m name) dow).getD 0 = dayTotalFn m name dow := by
  have h := dayTotals_foldl name m [] dow
  simpa [dayTotalsOf, lookupAssoc_nil] using h

theorem dayTotals_nodup (m : Ownership) (name : String) :
    ((dayTotalsOf m name).map Prod.fst).Nodup := by
  unfold dayTotalsOf
  suffices h : ∀ acc : List (Nat × Nat), (acc.map Prod.fst).Nodup →
      ((m.foldl (dayTotalsStep name) acc).map Prod.fst).Nodup by
    exact h [] (by simp)
  induction m with
  | nil => exact fun acc h => h
  | cons p rest ih =>
    intro acc h
    rw [List.foldl_cons]
    apply ih
    unfold dayTotalsStep
    cases lookupAssoc p.2 name with
    | none => exact h
    | some dates => exact nodup_keys_updAssoc _ _ _ _ h

theorem dayTotals_keys (m : Ownership) (name : String) (k : Nat)
    (hk : k ∈ (dayTotalsOf m name).map Prod.fst) :
    ∃ p ∈ m, p.1.dayOfWeek = k := by
  unfold dayTotalsOf at hk
  suffices h : ∀ acc : List (Nat × Nat),
      k ∈ (m.foldl (dayTotalsStep name) acc).map Prod.fst →
      k ∈ acc.map Prod.fst ∨ ∃ p ∈ m, p.1.dayOfWeek = k by
    rcases h [] hk with h0 | h0
    · simp at h0
    · exact h0
  clear hk
  induction m with
  | nil => exact fun acc h => Or.inl h
  | cons p rest ih =>
    intro acc h
    rw [List.foldl_cons] at h
    rcases ih (dayTotalsStep name acc p) h with h2 | ⟨q, hq, hqk⟩
    · unfold dayTotalsStep at h2
      cases hl : lookupAssoc p.2 name with
      | none =>
        rw [hl] at h2
        exact Or.inl h2
      | some dates =>
        rw [hl] at h2
        rw [keys_updAssoc] at h2
        by_cases hmem : p.1.dayOfWeek ∈ acc.map Prod.fst
        · rw [if_pos hmem] at h2
          exact Or.inl h2
        · rw [if_neg hmem] at h2
          rcases List.mem_append.mp h2 with h3 | h3
          · exact Or.inl h3
          · simp only [List.mem_singleton] at h3
            exact Or.inr ⟨p, List.mem_cons_self p rest, h3.symm⟩
    · exact Or.inr ⟨q, List.mem_cons_of_mem p hq, hqk⟩

theorem dayTotals_mem_val (m : Ownership) (name : String) (p : Nat × Nat)
    (hp : p ∈ dayTotalsOf m name) : p.2 = dayTotalFn m name p.1 := by
  have hl := mem_lookupAssoc _ _ _ (dayTotals_nodup m name) (by simpa using hp)
  have h2 := lookup_dayTotals m name p.1
  rw [hl] at h2
  simpa using h2

theorem dayTotals_mem_of_pos (m : Ownership) (name : String) (dow : Nat)
    (h : 0 < dayTotalFn m name dow) :
    (dow, dayTotalFn m name dow) ∈ dayTotalsOf m name := by
  cases hl : lookupAssoc (dayTotalsOf m name) dow with
  | none =>
    exfalso
    have h2 := lookup_dayTotals m name dow
    rw [hl] at h2
    simp at h2
    omega
  | some v =>
    have h2 := lookup_dayTotals m name dow
    rw [hl] at h2
    simp only [Option.getD_some] at h2
    exact h2 ▸ lookupAssoc_mem _ _ _ hl

theorem buildOwnership_keys (assignments : List OwnRecord) (k : SlotKey)
    (hk : k ∈ (buildOwnership assignments).map Prod.fst) :
    ∃ a ∈ assignments, k = recordSlotKey a := by
  unfold buildOwnership at hk
  suffices h : ∀ acc : Ownership,
      k ∈ (assignments.foldl addOwnRecord acc).map Prod.fst →
      k ∈ acc.map Prod.fst ∨ ∃ a ∈ assignments, k = recordSlotKey a by
    rcases h [] hk with h0 | h0
    · simp at h0
    · exact h0
  clear hk
  induction assignments with
  | nil => exact fun acc h => Or.inl h
  | cons a rest ih =>
    intro acc h
    rw [List.foldl_cons] at h
    rcases ih (addOwnRecord acc a) h with h2 | ⟨q, hq, hqk⟩
    · unfold addOwnRecord at h2
      rw [keys_updAssoc] at h2
      by_cases hmem : recordSlotKey a ∈ acc.map Prod.fst
      · rw [if_pos hmem] at h2
        exact Or.inl h2
      · rw [if_neg hmem] at h2
        rcases List.mem_append.mp h2 with h3 | h3
        · exact Or.inl h3
        · simp only [List.mem_singleton] at h3
          exact Or.inr ⟨a, List.mem_cons_self a rest, h3⟩
    · exact Or.inr ⟨q, List.mem_cons_of_mem a hq, hqk⟩

/-- **C10.**  `get_driver_pattern` returns the safety default — 6 typical
days, empty day list, confidence `0.0` (`defaultPattern`) — whenever no
weekday accumulates at least 2 of the driver's assignments summed across
all slots (including a driver entirely absent from the training data, and
an empty classifier); otherwise `typical_days` is the number of weekdays
whose summed assignment count is at least 2, and `day_list` is those
weekdays' names sorted by descending count. -/
theorem driver_pattern_C10 (assignments : List OwnRecord) (name : String)
    (sqrt : ℚ → ℚ) (hdow : ∀ a ∈ assignments, a.dayOfWeek < 7) :
    ((∀ dow, dayTotalFn (buildOwnership assignments) name dow < 2) →
      getDriverPattern sqrt (buildOwnership assignments) name = defaultPattern name) ∧
    ((∃ dow, 2 ≤ dayTotalFn (buildOwnership assignments) name dow) →
      (getDriverPattern sqrt (buildOwnership assignments) name).typical_days =
        ((List.range 7).filter
          (fun dow => decide (2 ≤ dayTotalFn (buildOwnership assignments) name dow))).length ∧
      (getDriverPattern sqrt (buildOwnership assignments) name).day_list =
        (sortedPatternDays (buildOwnership assignments) name).map
          (fun d => DAY_NAMES.getD d "") ∧
      (sortedPatternDays (buildOwnership assignments) name).Pairwise
        (fun d1 d2 => dayTotalFn (buildOwnership assignments) name d2 ≤
          dayTotalFn (buildOwnership assignments) name d1) ∧
      (getDriverPattern sqrt (buildOwnership assignments) name).day_list.length =
        (getDriverPattern sqrt (buildOwnership assignments) name).typical_days) := by
  set m := buildOwnership assignments with hmdef
  have hk7 : ∀ k ∈ (dayTotalsOf m name).map Prod.fst, k < 7 := by
    intro k hk
    rcases dayTotals_keys m name k hk with ⟨p, hp, hpk⟩
    rcases buildOwnership_keys assignments p.1
        (by rw [← hmdef]; exact List.mem_map.mpr ⟨p, hp, rfl⟩) with ⟨a, ha, hkey⟩
    have : p.1.dayOfWeek = a.dayOfWeek := by rw [hkey]; rfl
    rw [← hpk, this]
    exact hdow a ha
  constructor
  · intro hno
    have hpc : patternDayCounts m name = [] := by
      unfold patternDayCounts
      apply List.filter_eq_nil_iff.mpr
      intro p hp hdec
      have h2 := of_decide_eq_true hdec
      rw [dayTotals_mem_val m name p hp] at h2
      exact absurd h2 (by have := hno p.1; omega)
    simp only [getDriverPattern, hpc, List.isEmpty_nil, if_true]
    split_ifs <;> rfl
  · rintro ⟨dow0, h2⟩
    have hm0 : m.isEmpty = false := by
      cases h : m.isEmpty
      · rfl
      · exfalso
        have hnil := List.isEmpty_iff.mp h
        rw [hnil] at h2
        simp [dayTotalFn] at h2
    have hpcmem : (dow0, dayTotalFn m name dow0) ∈ patternDayCounts m name := by
      apply List.mem_filter.mpr
      exact ⟨dayTotals_mem_of_pos m name dow0 (by omega), by simpa using h2⟩
    have hpcne : (patternDayCounts m name).isEmpty = false := by
      cases h : (patternDayCounts m name).isEmpty
      · rfl
      · exfalso
        rw [List.isEmpty_iff.mp h] at hpcmem
        exact absurd hpcmem (List.not_mem_nil _)
    have htd : (getDriverPattern sqrt m name).typical_days =
        (patternDayCounts m name).length := by
      simp only [getDriverPattern, hm0, Bool.false_eq_true, if_false, hpcne]
    have hdl : (getDriverPattern sqrt m name).day_list =
        (sortedPatternDays m name).map (fun d => DAY_NAMES.getD d "") := by
      simp only [getDriverPattern, hm0, Bool.false_eq_true, if_false, hpcne]
    have hTn : ((patternDayCounts m name).map Prod.fst).Nodup :=
      List.Nodup.sublist (List.Sublist.map Prod.fst (List.filter_sublist _))
        (dayTotals_nodup m name)
    have hSn : ((List.range 7).filter
        (fun dow => decide (2 ≤ dayTotalFn m name dow))).Nodup :=
      (List.nodup_range 7).filter _
    have hiff : ∀ k, k ∈ (patternDayCounts m name).map Prod.fst ↔
        k ∈ (List.range 7).filter (fun dow => decide (2 ≤ dayTotalFn m name dow)) := by
      intro k
      constructor
      · intro hk
        rcases List.mem_map.mp hk with ⟨p, hp, hpk⟩
        rcases List.mem_filter.mp hp with ⟨hmem, hge⟩
        have hval := dayTotals_mem_val m name p hmem
        have hg2 := of_decide_eq_true hge
        rw [hval] at hg2
        apply List.mem_filter.mpr
        refine ⟨List.mem_range.mpr ?_, by rw [← hpk]; simpa using hg2⟩
        rw [← hpk]
        exact hk7 p.1 (List.mem_map.mpr ⟨p, hmem, rfl⟩)
      · intro hk
        rcases List.mem_filter.mp hk with ⟨hr, hge⟩
        have hg2 := of_decide_eq_true hge
        apply List.mem_map.mpr
        refine ⟨(k, dayTotalFn m name k), List.mem_filter.mpr
          ⟨dayTotals_mem_of_pos m name k (by omega), by simpa using hg2⟩, rfl⟩
    have hperm := List.perm_of_nodup_nodup_toFinset_eq hTn hSn
      (by ext x; simp only [List.mem_toFinset]; exact hiff x)
    have hcount : (patternDayCounts m name).length =
        ((List.range 7).filter
          (fun dow => decide (2 ≤ dayTotalFn m name dow))).length := by
      calc (patternDayCounts m name).length
          = ((patternDayCounts m name).map Prod.fst).length := (List.length_map _ _).symm
        _ = _ := hperm.length_eq
    refine ⟨by rw [htd]; exact hcount, hdl, ?_, ?_⟩
    · unfold sortedPatternDays
      rw [List.pairwise_map]
      apply (sortDesc_sorted (fun p : Nat × Nat => p.2)
        (patternDayCounts m name)).imp_of_mem
      intro a b hma hmb hr
      have hva : a.2 = dayTotalFn m name a.1 :=
        dayTotals_mem_val m name a
          (List.mem_of_mem_filter ((sortDesc_perm _ _).mem_iff.mp hma))
      have hvb : b.2 = dayTotalFn m name b.1 :=
        dayTotals_mem_val m name b
          (List.mem_of_mem_filter ((sortDesc_perm _ _).mem_iff.mp hmb))
      rw [← hva, ← hvb]
      exact hr
    · rw [hdl, htd]
      unfold sortedPatternDays
      rw [List.length_map, List.length_map]
      exact (sortDesc_perm _ _).length_eq

theorem driver_pattern_C10_witness :
    (∀ a ∈ c10recs, a.dayOfWeek < 7) ∧
    getDriverPattern (fun _ => 0) (buildOwnership c10recs) "V" = defaultPattern "V" ∧
    (∃ dow, 2 ≤ dayTotalFn (buildOwnership c10recs) "W" dow) ∧
    (getDriverPattern (fun _ => 0) (buildOwnership c10recs) "W").typical_days =
      ((List.range 7).filter
        (fun dow => decide (2 ≤ dayTotalFn (buildOwnership c10recs) "W" dow))).length ∧
    (getDriverPattern (fun _ => 0) (buildOwnership c10recs) "W").day_list = ["Monday"] := by
  have hdow : ∀ a ∈ c10recs, a.dayOfWeek < 7 := by decide
  have hm : buildOwnership c10recs =
      [(⟨"solo1", "Tractor_1", "16:30", 1⟩, [("W", ["2025-01-06", "2025-01-13"])]),
       (⟨"solo1", "Tractor_1", "16:30", 2⟩, [("V", ["2025-01-07"])])] := by decide
  have hnoV : ∀ dow, dayTotalFn (buildOwnership c10recs) "V" dow < 2 := by
    intro dow
    rw [hm]
    unfold dayTotalFn
    simp only [List.filter_cons, List.filter_nil]
    split_ifs <;> simp [lookupAssoc]
  refine ⟨hdow, (driver_pattern_C10 c10recs "V" (fun _ => 0) hdow).1 hnoV,
    ⟨1, by decide⟩,
    ((driver_pattern_C10 c10recs "W" (fun _ => 0) hdow).2 ⟨1, by decide⟩).1,
    by decide⟩

/-! Preference-calculation lemmas: claim C6. -/

theorem firstDedup_foldl_mem {α : Type} [DecidableEq α] (l : List α) (acc : List α)
    (x : α) :
    x ∈ l.foldl (fun acc y => if y ∈ acc then acc else acc ++ [y]) acc ↔
      x ∈ acc ∨ x ∈ l := by
  induction l generalizing acc with
  | nil => simp
  | cons y ys ih =>
    rw [List.foldl_cons, ih]
    by_cases hy : y ∈ acc
    · rw [if_pos hy]
      constructor
      · rintro (h | h)
        · exact Or.inl h
        · exact Or.inr (List.mem_cons_of_mem y h)
      · rintro (h | h)
        · exact Or.inl h
        · rcases List.mem_cons.mp h with rfl | h2
          · exact Or.inl hy
          · exact Or.inr h2
    · rw [if_neg hy]
      simp only [List.mem_append, List.mem_singleton, List.mem_cons]
      tauto

theorem firstDedup_mem {α : Type} [DecidableEq α] (l : List α) (x : α) :
    x ∈ firstDedup l ↔ x ∈ l := by
  unfold firstDedup
  rw [firstDedup_foldl_mem]
  simp

theorem firstDedup_nodup {α : Type} [DecidableEq α] (l : List α) :
    (firstDedup l).Nodup := by
  unfold firstDedup
  suffices h : ∀ acc : List α, acc.Nodup →
      (l.foldl (fun acc y => if y ∈ acc then acc else acc ++ [y]) acc).Nodup by
    exact h [] List.nodup_nil
  induction l with
  | nil => exact fun acc h => h
  | cons y ys ih =>
    intro acc h
    rw [List.foldl_cons]
    apply ih
    by_cases hy : y ∈ acc
    · rwa [if_pos hy]
    · rw [if_neg hy, List.nodup_append]
      exact ⟨h, List.nodup_singleton y, by simpa [List.disjoint_singleton] using hy⟩

theorem mem_valueCounts {α : Type} [DecidableEq α] (l : List α) (p : α × Nat) :
    p ∈ valueCounts l ↔ p.1 ∈ l ∧ p.2 = l.count p.1 := by
  unfold valueCounts
  rw [(sortDesc_perm _ _).mem_iff, List.mem_map]
  constructor
  · rintro ⟨v, hv, heq⟩
    have h1 : p.1 = v := by rw [← heq]
    have h2 : p.2 = l.count v := by rw [← heq]
    exact ⟨h1 ▸ (firstDedup_mem l v).mp hv, h1 ▸ h2⟩
  · rintro ⟨h1, h2⟩
    exact ⟨p.1, (firstDedup_mem l p.1).mpr h1, by cases p; simp only at h2 ⊢; rw [← h2]⟩

theorem valueCounts_keys {α : Type} [DecidableEq α] (l : List α) :
    ((valueCounts l).map Prod.fst).Perm (firstDedup l) := by
  unfold valueCounts
  have h := ((sortDesc_perm (fun p : α × Nat => p.2)
    ((firstDedup l).map (fun v => (v, l.count v)))).map Prod.fst)
  rw [List.map_map] at h
  have h2 : List.map (Prod.fst ∘ fun v => (v, l.count v)) (firstDedup l) = firstDedup l := by
    simp [Function.comp_def]
  rwa [h2] at h

theorem valueCounts_keys_nodup {α : Type} [DecidableEq α] (l : List α) :
    ((valueCounts l).map Prod.fst).Nodup :=
  ((valueCounts_keys l).nodup_iff).mpr (firstDedup_nodup l)

theorem valueCounts_length {α : Type} [DecidableEq α] (l : List α) :
    (valueCounts l).length = (firstDedup l).length := by
  have h := (valueCounts_keys l).length_eq
  rw [List.length_map] at h
  exact h

theorem valueCounts_sorted {α : Type} [DecidableEq α] (l : List α) :
    (valueCounts l).Pairwise (fun a b => b.2 ≤ a.2) :=
  sortDesc_sorted _ _

theorem take_top {α : Type} (vc : List (α × Nat))
    (hs : vc.Pairwise (fun a b => b.2 ≤ a.2)) (k : Nat) :
    ∀ p ∈ vc.take k, ∀ q ∈ vc, q ∉ vc.take k → q.2 ≤ p.2 := by
  intro p hp q hq hqn
  have hsplit := List.take_append_drop k vc
  have hq2 : q ∈ vc.drop k := by
    rw [← hsplit] at hq
    rcases List.mem_append.mp hq with h | h
    · exact absurd h hqn
    · exact h
  have hs2 : (vc.take k ++ vc.drop k).Pairwise (fun a b => b.2 ≤ a.2) := by
    rwa [hsplit]
  exact (List.pairwise_append.mp hs2).2.2 p hp q hq2

theorem calculatePreferences_days (sqrt : ℚ → ℚ) (records : List PARecord)
    (hne : records.isEmpty = false) :
    (calculatePreferences sqrt records).days =
      (if ((valueCounts (records.map (fun r => strLower r.day))).filter
            (fun p => (records.length : ℚ) / 4 ≤ (p.2 : ℚ))).map (·.1) |>.isEmpty then
        ((valueCounts (records.map (fun r => strLower r.day))).take 3).map (·.1)
      else
        ((valueCounts (records.map (fun r => strLower r.day))).filter
          (fun p => (records.length : ℚ) / 4 ≤ (p.2 : ℚ))).map (·.1)) := by
  rw [calculatePreferences, if_neg (by simp [hne])]

theorem calculatePreferences_times (sqrt : ℚ → ℚ) (records : List PARecord)
    (hne : records.isEmpty = false) :
    (calculatePreferences sqrt records).times =
      ((valueCounts (records.filterMap (·.time))).take 3).map (·.1) := by
  rw [calculatePreferences, if_neg (by simp [hne])]

theorem threshold_iff (total c : Nat) :
    ((total : ℚ) / 4 ≤ (c : ℚ)) ↔ total ≤ 4 * c := by
  rw [div_le_iff (by norm_num : (0 : ℚ) < 4)]
  rw [show ((c : ℚ) * 4) = ((4 * c : Nat) : ℚ) by push_cast; ring]
  exact_mod_cast Iff.rfl

/-- **C6** (amended).  `_calculate_preferences` on a non-empty history:
a day enters the preferred-days list exactly when its occurrence count is
at least 25% of the total record count (`threshold = total * 0.25`, exact
in floating point); when no day reaches that bar the fallback is the top-3
(not top-4) most frequent days; and the preferred-times list is the top-3
start times ranked by descending occurrence frequency — never
alphabetically. -/
theorem calculate_preferences_C6 (sqrt : ℚ → ℚ) (records : List PARecord)
    (hne : records.isEmpty = false) :
    ((∃ d ∈ records.map (fun r => strLower r.day),
        records.length ≤ 4 * (records.map (fun r => strLower r.day)).count d) →
      ∀ x, x ∈ (calculatePreferences sqrt records).days ↔
        (x ∈ records.map (fun r => strLower r.day) ∧
          records.length ≤ 4 * (records.map (fun r => strLower r.day)).count x)) ∧
    ((¬ ∃ d ∈ records.map (fun r => strLower r.day),
        records.length ≤ 4 * (records.map (fun r => strLower r.day)).count d) →
      (calculatePreferences sqrt records).days.length =
        min 3 (firstDedup (records.map (fun r => strLower r.day))).length ∧
      ∀ x ∈ (calculatePreferences sqrt records).days,
        ∀ y ∈ records.map (fun r => strLower r.day),
          y ∉ (calculatePreferences sqrt records).days →
            (records.map (fun r => strLower r.day)).count y ≤
              (records.map (fun r => strLower r.day)).count x) ∧
    ((calculatePreferences sqrt records).times.length =
        min 3 (firstDedup (records.filterMap (·.time))).length ∧
      ((calculatePreferences sqrt records).times.map
          (fun t => (records.filterMap (·.time)).count t)).Pairwise
        (fun a b => b ≤ a) ∧
      ∀ x ∈ (calculatePreferences sqrt records).times,
        ∀ y ∈ records.filterMap (·.time),
          y ∉ (calculatePreferences sqrt records).times →
            (records.filterMap (·.time)).count y ≤
              (records.filterMap (·.time)).count x) := by
  have hdays := calculatePreferences_days sqrt records hne
  have htimes := calculatePreferences_times sqrt records hne
  refine ⟨?_, ?_, ?_⟩
  · rintro ⟨d, hd, hq⟩ x
    have hdq : d ∈ ((valueCounts (records.map (fun r => strLower r.day))).filter
        (fun p => (records.length : ℚ) / 4 ≤ (p.2 : ℚ))).map (·.1) := by
      apply List.mem_map.mpr
      refine ⟨(d, (records.map (fun r => strLower r.day)).count d), ?_, rfl⟩
      apply List.mem_filter.mpr
      refine ⟨(mem_valueCounts _ _).mpr ⟨hd, rfl⟩, ?_⟩
      exact decide_eq_true ((threshold_iff _ _).mpr hq)
    have hif : (((valueCounts (records.map (fun r => strLower r.day))).filter
        (fun p => (records.length : ℚ) / 4 ≤ (p.2 : ℚ))).map (·.1)).isEmpty = false := by
      cases h : (((valueCounts (records.map (fun r => strLower r.day))).filter
          (fun p => (records.length : ℚ) / 4 ≤ (p.2 : ℚ))).map (·.1)).isEmpty
      · rfl
      · exfalso
        rw [List.isEmpty_iff.mp h] at hdq
        exact absurd hdq (List.not_mem_nil d)
    rw [hdays, if_neg (by simp [hif])]
    constructor
    · intro hx
      rcases List.mem_map.mp hx with ⟨p, hpf, hpx⟩
      rcases List.mem_filter.mp hpf with ⟨hpvc, hpcond⟩
      rcases (mem_valueCounts _ _).mp hpvc with ⟨hp1, hp2⟩
      have hc := (threshold_iff _ _).mp (of_decide_eq_true hpcond)
      rw [hp2] at hc
      rw [← hpx]
      exact ⟨hp1, hc⟩
    · rintro ⟨hx, hc⟩
      apply List.mem_map.mpr
      refine ⟨(x, (records.map (fun r => strLower r.day)).count x), ?_, rfl⟩
      apply List.mem_filter.mpr
      exact ⟨(mem_valueCounts _ _).mpr ⟨hx, rfl⟩,
        decide_eq_true ((threshold_iff _ _).mpr hc)⟩
  · intro hnq
    have hqe : ((valueCounts (records.map (fun r => strLower r.day))).filter
        (fun p => (records.length : ℚ) / 4 ≤ (p.2 : ℚ))).map (·.1) = [] := by
      rw [List.eq_nil_iff_forall_not_mem]
      intro x hx
      rcases List.mem_map.mp hx with ⟨p, hpf, hpx⟩
      rcases List.mem_filter.mp hpf with ⟨hpvc, hpcond⟩
      rcases (mem_valueCounts _ _).mp hpvc with ⟨hp1, hp2⟩
      have hc := (threshold_iff _ _).mp (of_decide_eq_true hpcond)
      rw [hp2] at hc
      exact hnq ⟨p.1, hp1, hc⟩
    have hdays2 : (calculatePreferences sqrt records).days =
        ((valueCounts (records.map (fun r => strLower r.day))).take 3).map (·.1) := by
      rw [hdays, hqe]
      rfl
    constructor
    · rw [hdays2, List.length_map, List.length_take, valueCounts_length]
    · intro x hx y hy hyn
      rw [hdays2] at hx hyn
      rcases List.mem_map.mp hx with ⟨p, hpt, hpx⟩
      have hyvc : (y, (records.map (fun r => strLower r.day)).count y) ∈
          valueCounts (records.map (fun r => strLower r.day)) :=
        (mem_valueCounts _ _).mpr ⟨hy, rfl⟩
      have hynt : (y, (records.map (fun r => strLower r.day)).count y) ∉
          (valueCounts (records.map (fun r => strLower r.day))).take 3 := by
        intro hmem
        exact hyn (List.mem_map.mpr ⟨_, hmem, rfl⟩)
      have htop := take_top _ (valueCounts_sorted _) 3 p hpt _ hyvc hynt
      have hp2 : p.2 = (records.map (fun r => strLower r.day)).count p.1 :=
        ((mem_valueCounts _ _).mp (List.mem_of_mem_take hpt)).2
      rw [← hpx]
      rw [hp2] at htop
      exact htop
  · refine ⟨?_, ?_, ?_⟩
    · rw [htimes, List.length_map, List.length_take, valueCounts_length]
    · rw [htimes, List.map_map, List.pairwise_map]
      have hsorted : ((valueCounts (records.filterMap (·.time))).take 3).Pairwise
          (fun a b => b.2 ≤ a.2) :=
        (valueCounts_sorted _).sublist (List.take_sublist 3 _)
      apply hsorted.imp_of_mem
      intro a b hma hmb hr
      have hva := ((mem_valueCounts _ _).mp (List.mem_of_mem_take hma)).2
      have hvb := ((mem_valueCounts _ _).mp (List.mem_of_mem_take hmb)).2
      simp only [Function.comp_apply]
      rw [← hva, ← hvb]
      exact hr
    · intro x hx y hy hyn
      rw [htimes] at hx hyn
      rcases List.mem_map.mp hx with ⟨p, hpt, hpx⟩
      have hyvc : (y, (records.filterMap (·.time)).count y) ∈
          valueCounts (records.filterMap (·.time)) :=
        (mem_valueCounts _ _).mpr ⟨hy, rfl⟩
      have hynt : (y, (records.filterMap (·.time)).count y) ∉
          (valueCounts (records.filterMap (·.time))).take 3 := by
        intro hmem
        exact hyn (List.mem_map.mpr ⟨_, hmem, rfl⟩)
      have htop := take_top _ (valueCounts_sorted _) 3 p hpt _ hyvc hynt
      have hp2 : p.2 = (records.filterMap (·.time)).count p.1 :=
        ((mem_valueCounts _ _).mp (List.mem_of_mem_take hpt)).2
      rw [← hpx]
      rw [hp2] at htop
      exact htop

theorem calculate_preferences_C6_witness :
    c6witRecs.isEmpty = false ∧
    (∃ d ∈ c6witRecs.map (fun r => strLower r.day),
      c6witRecs.length ≤ 4 * (c6witRecs.map (fun r => strLower r.day)).count d) ∧
    "monday" ∈ (calculatePreferences (fun _ => 0) c6witRecs).days ∧
    "tuesday" ∉ (calculatePreferences (fun _ => 0) c6witRecs).days ∧
    (calculatePreferences (fun _ => 0) c6witRecs).times.length =
      min 3 (firstDedup (c6witRecs.filterMap (·.time))).length := by
  have hne : c6witRecs.isEmpty = false := by decide
  have hex : ∃ d ∈ c6witRecs.map (fun r => strLower r.day),
      c6witRecs.length ≤ 4 * (c6witRecs.map (fun r => strLower r.day)).count d := by decide
  have hiff := (calculate_preferences_C6 (fun _ => 0) c6witRecs hne).1 hex
  refine ⟨hne, hex, (hiff "monday").mpr (by decide), ?_,
    (calculate_preferences_C6 (fun _ => 0) c6witRecs hne).2.2.1⟩
  intro hmem
  have h := (hiff "tuesday").mp hmem
  revert h
  decide

/-- **C6, counterexample to the claim as stated.**  A 5-record history on 5
distinct weekdays, each weekday occurring in 100% of the observed history
(count 1 of 5 records): no day reaches the code's actual bar (25% of the
record count), so the fallback fires — and it returns the top **3** days,
not the top 4 the claim prescribes (nor all qualifying days under the
claim's ≥50%-of-weeks rule, which every day here satisfies). -/
theorem calculate_preferences_C6_counterexample :
    (calculatePreferences (fun _ => 0) c6recs).days.length = 3 ∧
    (firstDedup (c6recs.map (fun r => strLower r.day))).length = 5 ∧
    (∀ d ∈ c6recs.map (fun r => strLower r.day),
      (c6recs.map (fun r => strLower r.day)).count d = 1) := by
  refine ⟨?_, by decide, by decide⟩
  have hne : c6recs.isEmpty = false := by decide
  have hvc : valueCounts (c6recs.map (fun r => strLower r.day)) =
      [("monday", 1), ("tuesday", 1), ("wednesday", 1), ("thursday", 1),
       ("friday", 1)] := by decide
  have hlen : c6recs.length = 5 := by decide
  rw [calculatePreferences_days (fun _ => 0) c6recs hne, hvc, hlen]
  have hcp : ¬ ((5 : ℚ) / 4 ≤ (1 : ℚ)) := by norm_num
  simp [List.filter_cons, List.filter_nil, Nat.cast_one, hcp]

end Milo
